import Mathlib

/-!
The in-memory file-system tree of `homework1.cpp`.

A shallow embedding of `FileSystemItem`, `Catalog`, `File` and of the free
functions `ls` and `cat`.

* C++ objects live in a heap, a list of records; a pointer is an index into
  the list and `nullptr` is `Option.none`.
* `std::string` is a list of characters.  The code only ever compares a
  character with `'/'`, so nothing depends on the encoding.
* The recursion of `getFullPath` and `getItem` and the loop of `getItem` that
  climbs to the root take a fuel argument.  A result `none` of the outer
  `Option` means that the model is stuck: out of fuel, a dangling pointer, or
  a member function called on an object of the wrong class.  The C++ result
  `nullptr` is `some none`.
-/

namespace Homework1

/-- The text type of the program, `std::string`. -/
abbrev Str := List Char

/-- The dynamic class of an object: `FileSystemItem` itself, `Catalog` with
its `items`, or `File` with its `content`. -/
inductive Kind where
  | item
  | catalog (items : List Nat)
  | file (content : Str)
  deriving DecidableEq, Repr

/-- The fields of `FileSystemItem` (`path`, `parent`), with the fields of the
derived class in `kind`. -/
structure FileSystemItem where
  path : Str
  parent : Option Nat
  kind : Kind
  deriving DecidableEq, Repr

/-- The heap of allocated objects; the pointer `i` is the object `h[i]?`. -/
abbrev Heap := List FileSystemItem

/-- The virtual `isCatalog()`: `true` only for a `Catalog`. -/
def FileSystemItem.isCatalog (it : FileSystemItem) : Bool :=
  match it.kind with
  | .catalog _ => true
  | _ => false

/-- The constructor `Catalog(path, parent)`: allocates a catalog without
items and returns the heap together with the new pointer. -/
def newCatalog (h : Heap) (path : Str) (parent : Option Nat) : Heap × Nat :=
  (h ++ [{ path := path, parent := parent, kind := .catalog [] }], h.length)

/-- The constructor `File(path, content, parent)`. -/
def newFile (h : Heap) (path content : Str) (parent : Option Nat) : Heap × Nat :=
  (h ++ [{ path := path, parent := parent, kind := .file content }], h.length)

/-- The constructor `FileSystemItem(path, parent)` of the base class. -/
def newFileSystemItem (h : Heap) (path : Str) (parent : Option Nat) : Heap × Nat :=
  (h ++ [{ path := path, parent := parent, kind := .item }], h.length)

/-- The method `FileSystemItem::getFullPath`, called on the object `this`. -/
def getFullPath (h : Heap) : Nat → Nat → Option Str
  | 0, _ => none
  | fuel + 1, this =>
    match h[this]? with
    | none => none
    | some self =>
      match self.parent with
      | none => some ('/' :: self.path)
      | some p =>
        match h[p]? with
        | none => none
        | some par =>
          if par.path.isEmpty then some ('/' :: self.path)
          else
            match par.parent with
            | none => some ('/' :: par.path ++ '/' :: self.path)
            | some pp =>
              match h[pp]? with
              | none => none
              | some gp =>
                if gp.path.isEmpty then some ('/' :: par.path ++ '/' :: self.path)
                else
                  match getFullPath h fuel p with
                  | none => none
                  | some s => some (s ++ '/' :: self.path)

/-- The method `Catalog::addItem`: `item->parent = this`, then
`items.push_back(item)`. -/
def addItem (h : Heap) (this item : Nat) : Option Heap :=
  match h[item]? with
  | none => none
  | some it =>
    let h1 := h.set item { it with parent := some this }
    match h1[this]? with
    | none => none
    | some self =>
      match self.kind with
      | .catalog items => some (h1.set this { self with kind := .catalog (items ++ [item]) })
      | _ => none

/-- The loop `while (rootCatalog->parent != nullptr) rootCatalog = rootCatalog->parent;`
of `getItem`, started at `rootCatalog = c`; the result is the final value of
`rootCatalog`. -/
def rootCatalog (h : Heap) : Nat → Nat → Option Nat
  | 0, _ => none
  | fuel + 1, c =>
    match h[c]? with
    | none => none
    | some it =>
      match it.parent with
      | none => some c
      | some p => rootCatalog h fuel p

/-- The call `s.find(c)` of `std::string`: the index of the first `c`, or
`none` for `npos`. -/
def find (c : Char) : Str → Option Nat
  | [] => none
  | x :: xs => if x = c then some 0 else (find c xs).map (· + 1)

/-- The split of `relativePath` at its first `'/'` into `itemName` and
`subPath`. -/
def splitPath (relativePath : Str) : Str × Str :=
  match find '/' relativePath with
  | none => (relativePath, [])
  | some pos => (relativePath.take pos, relativePath.drop (pos + 1))

/-- The loop `for (FileSystemItem* item : items)` of `getItem`; `recur` is
the recursive call `item->asCatalog()->getItem(subPath)`. -/
def scanItems (h : Heap) (recur : Nat → Str → Option (Option Nat))
    (itemName subPath : Str) : List Nat → Option (Option Nat)
  | [] => some none
  | item :: rest =>
    match h[item]? with
    | none => none
    | some it =>
      if it.path = itemName then
        if subPath.isEmpty then some (some item)
        else if it.isCatalog then recur item subPath
        else some none
      else scanItems h recur itemName subPath rest

/-- The method `Catalog::getItem`, called on the catalog `this`.  `loopFuel`
bounds the climb to the root, the other fuel the depth of the recursion. -/
def getItem (h : Heap) (loopFuel : Nat) : Nat → Nat → Str → Option (Option Nat)
  | 0, _, _ => none
  | fuel + 1, this, relativePath =>
    if relativePath.isEmpty then some none
    else if relativePath.head? = some '/' then
      match rootCatalog h loopFuel this with
      | none => none
      | some r => getItem h loopFuel fuel r (relativePath.drop 1)
    else
      match h[this]? with
      | none => none
      | some self =>
        match self.kind with
        | .catalog items =>
          scanItems h (getItem h loopFuel fuel) (splitPath relativePath).1
            (splitPath relativePath).2 items
        | _ => none

/-- The function `ls`, with the global `currentDirectory` as a parameter. -/
def ls (h : Heap) (currentDirectory : Nat) : Option Str :=
  match h[currentDirectory]? with
  | none => none
  | some cur =>
    match cur.kind with
    | .catalog items =>
      items.foldl
        (fun ss item =>
          match ss, h[item]? with
          | some s, some it => some (s ++ it.path ++ ['\n'])
          | _, _ => none)
        (some [])
    | _ => none

/-- The `return` statement by which `cat` leaves. -/
inductive CatReturn where
  | content (s : Str)
  | errorReading
  | isDirectory
  | notFound
  deriving DecidableEq, Repr

/-- The text that `cat` returns at each of its `return` statements. -/
def CatReturn.text : CatReturn → Str
  | .content s => s
  | .errorReading => "Error reading file.".toList
  | .isDirectory => "Cannot display content of a directory.".toList
  | .notFound => "File not found.".toList

/-- The cast `dynamic_cast<File*>(item)`: the content of the object when it
is a `File`, `none` for the null result. -/
def asFile (it : FileSystemItem) : Option Str :=
  match it.kind with
  | .file content => some content
  | _ => none

/-- The control flow of `cat`: which `return` statement is taken. -/
def catReturn (h : Heap) (loopFuel fuel : Nat) (currentDirectory : Nat) (filename : Str) :
    Option CatReturn :=
  match getItem h loopFuel fuel currentDirectory filename with
  | none => none
  | some none => some .notFound
  | some (some item) =>
    match h[item]? with
    | none => none
    | some it =>
      if !it.isCatalog then
        match asFile it with
        | some content => some (.content content)
        | none => some .errorReading
      else some .isDirectory

/-- The function `cat`, with the global `currentDirectory` as a parameter. -/
def cat (h : Heap) (loopFuel fuel : Nat) (currentDirectory : Nat) (filename : Str) :
    Option Str :=
  (catReturn h loopFuel fuel currentDirectory filename).map CatReturn.text

/-- The state that `main` has built when it enters the command loop. -/
structure Session where
  heap : Heap
  root : Nat
  home : Nat
  user : Nat
  file1 : Nat
  file2 : Nat
  file3 : Nat
  currentDirectory : Nat

/-- The set-up part of `main`, statement by statement. -/
def mainSetup : Option Session :=
  let (h, root) := newCatalog [] "".toList none
  let (h, home) := newCatalog h "home".toList (some root)
  match addItem h root home with
  | none => none
  | some h =>
  let (h, user) := newCatalog h "user".toList (some home)
  match addItem h home user with
  | none => none
  | some h =>
  let currentDirectory := user
  let (h, file1) := newFile h "text1.txt".toList "Содержимое файла text1.txt".toList
    (some currentDirectory)
  let (h, file2) := newFile h "text2.txt".toList "Содержимое файла text2.txt".toList
    (some currentDirectory)
  let (h, file3) := newFile h "text3.txt".toList "Содержимое файла text3.txt".toList
    (some currentDirectory)
  match addItem h currentDirectory file1 with
  | none => none
  | some h =>
  match addItem h currentDirectory file2 with
  | none => none
  | some h =>
  match addItem h currentDirectory file3 with
  | none => none
  | some h =>
    some { heap := h, root := root, home := home, user := user, file1 := file1,
           file2 := file2, file3 := file3, currentDirectory := currentDirectory }

/-- The heap built by `main`, written out. -/
def mainHeap : Heap :=
  [ { path := "".toList, parent := none, kind := .catalog [1] },
    { path := "home".toList, parent := some 0, kind := .catalog [2] },
    { path := "user".toList, parent := some 1, kind := .catalog [3, 4, 5] },
    { path := "text1.txt".toList, parent := some 2,
      kind := .file "Содержимое файла text1.txt".toList },
    { path := "text2.txt".toList, parent := some 2,
      kind := .file "Содержимое файла text2.txt".toList },
    { path := "text3.txt".toList, parent := some 2,
      kind := .file "Содержимое файла text3.txt".toList } ]

/-- A heap with a root catalog that holds the file `a` (content `x`), and a
second, not yet attached file that is also named `a` (content `y`). -/
def duplicateHeap : Heap :=
  [ { path := [], parent := none, kind := .catalog [1] },
    { path := ['a'], parent := some 0, kind := .file ['x'] },
    { path := ['a'], parent := none, kind := .file ['y'] } ]

/-- The parent links of a heap written as a list: `isParentChain h c` holds
when `c = [n, parent of n, ..., r]`, every element has the next one as its
parent, and the last element `r` has no parent (it is the root). -/
def isParentChain (h : Heap) : List Nat → Bool
  | [] => false
  | [r] =>
    match h[r]? with
    | some it => it.parent.isNone
    | none => false
  | a :: b :: rest =>
    (match h[a]? with
      | some it => it.parent == some b
      | none => false) && isParentChain h (b :: rest)

/-- The `path` of the object at `i` (empty for a dangling pointer). -/
def nameOf (h : Heap) (i : Nat) : Str :=
  match h[i]? with
  | some it => it.path
  | none => []

/-- The names along an upward chain `c = [n, ..., a1, r]`, listed from the
root downwards and without the root: the names of `a1, ..., n`. -/
def chainNames (h : Heap) (c : List Nat) : List Str :=
  (c.dropLast.reverse).map (nameOf h)

/-- The full path as the specification defines it: `"/"` followed by the
names joined with `"/"`. -/
def referenceFullPath (names : List Str) : Str :=
  "/".toList ++ List.intercalate "/".toList names

/-- The first segment of a path as the specification defines it: the text
before the first `'/'`, or the whole path when it has none. -/
def firstSegment (p : Str) : Str :=
  p.takeWhile (fun ch => ch != '/')

/-- The listing of `ls` as the specification defines it: every name followed
by one newline, in the order given. -/
def referenceListing (names : List Str) : Str :=
  (names.map (fun name => name ++ "\n".toList)).flatten

/-- Whether two adjacent characters of `s` are both `'/'`. -/
def hasDoubleSlash : Str → Bool
  | a :: b :: rest => (a == '/' && b == '/') || hasDoubleSlash (b :: rest)
  | _ => false

/-- The heap `duplicateHeap` after the root has received the second file by
`addItem`: the root holds two files named `a`, first `1`, then `2`. -/
def duplicateAdded : Heap :=
  [ { path := [], parent := none, kind := .catalog [1, 2] },
    { path := ['a'], parent := some 0, kind := .file ['x'] },
    { path := ['a'], parent := some 0, kind := .file ['y'] } ]

/-- The parent/children invariant of the data model at the node `i`: a node
without a parent is the root, and a node with a parent occurs exactly once
among the items of that parent. -/
def linkedOnce (h : Heap) (root i : Nat) : Bool :=
  match h[i]? with
  | none => true
  | some it =>
    match it.parent with
    | none => i == root
    | some p =>
      match h[p]? with
      | none => false
      | some par =>
        match par.kind with
        | .catalog items => items.count i == 1
        | _ => false

/-- The parent/children invariant of the data model, for every allocated
node. -/
def parentChildInvariant (h : Heap) (root : Nat) : Prop :=
  ∀ i, i < h.length → linkedOnce h root i = true

instance decParentChildInvariant (h : Heap) (root : Nat) :
    Decidable (parentChildInvariant h root) :=
  inferInstanceAs (Decidable (∀ i, i < h.length → linkedOnce h root i = true))

/-- The pointers of the heap respect the C++ types: every `parent` is a
`Catalog*` to an allocated catalog, and every item of a catalog is
allocated. -/
def WellTyped (h : Heap) : Prop :=
  ∀ (i : Nat) (it : FileSystemItem), h[i]? = some it →
    (∀ p, it.parent = some p →
      ∃ (par : FileSystemItem) (its : List Nat), h[p]? = some par ∧ par.kind = .catalog its) ∧
    (∀ its, it.kind = .catalog its → ∀ j ∈ its, ∃ c : FileSystemItem, h[j]? = some c)

/-- The parent links are acyclic: `depth` decreases strictly from every
node to its parent. -/
def Acyclic (h : Heap) (depth : Nat → Nat) : Prop :=
  ∀ (i : Nat) (it : FileSystemItem) (p : Nat),
    h[i]? = some it → it.parent = some p → depth p < depth i

/-- Each child's parent is the catalog that holds it: every item of a
catalog `c` is allocated and has the parent `c`. -/
def ParentIsHolder (h : Heap) : Prop :=
  ∀ (c : Nat) (cat : FileSystemItem) (its : List Nat), h[c]? = some cat →
    cat.kind = .catalog its →
    ∀ j ∈ its, ∃ child : FileSystemItem, h[j]? = some child ∧ child.parent = some c

/-- Every item of a catalog has a non-empty name without `'/'`. -/
def WellNamed (h : Heap) : Prop :=
  ∀ (c : Nat) (cat : FileSystemItem) (its : List Nat), h[c]? = some cat →
    cat.kind = .catalog its → ∀ j ∈ its, nameOf h j ≠ [] ∧ '/' ∉ nameOf h j

/-- No two items of a catalog share a name. -/
def UniqueNames (h : Heap) : Prop :=
  ∀ (c : Nat) (cat : FileSystemItem) (its : List Nat), h[c]? = some cat →
    cat.kind = .catalog its → ∀ j ∈ its, ∀ k ∈ its, nameOf h j = nameOf h k → j = k

/-- The items links of a heap written as a list: `isItemChain h c` holds when
`c = [a0, a1, ..., ak]`, every element but the last is a catalog that holds
the next one among its items, and the last element is allocated. -/
def isItemChain (h : Heap) : List Nat → Bool
  | [] => false
  | [a] => (h[a]?).isSome
  | a :: b :: rest =>
    (match h[a]? with
      | some it =>
        match it.kind with
        | .catalog its => its.contains b
        | _ => false
      | none => false) && isItemChain h (b :: rest)

/-- The heap of `main` after the call `user->addItem(root)`: the root has the
parent `user` and is the last item of `user`. -/
def mainHeapRootAdded : Heap :=
  [ { path := "".toList, parent := some 2, kind := .catalog [1] },
    { path := "home".toList, parent := some 0, kind := .catalog [2] },
    { path := "user".toList, parent := some 1, kind := .catalog [3, 4, 5, 0] },
    { path := "text1.txt".toList, parent := some 2,
      kind := .file "Содержимое файла text1.txt".toList },
    { path := "text2.txt".toList, parent := some 2,
      kind := .file "Содержимое файла text2.txt".toList },
    { path := "text3.txt".toList, parent := some 2,
      kind := .file "Содержимое файла text3.txt".toList } ]

/-- The node `x` is not linked into the heap: no object has `x` as its
parent and no catalog has `x` among its items. -/
def Unlinked (h : Heap) (x : Nat) : Prop :=
  (∀ (j : Nat) (jt : FileSystemItem), h[j]? = some jt → jt.parent ≠ some x) ∧
  (∀ (c : Nat) (cself : FileSystemItem) (its : List Nat), h[c]? = some cself →
    cself.kind = .catalog its → x ∉ its)

/-- Two trees that share a catalog: the root `0` holds `a` (`1`), which holds
the catalog `x` (`2`); `x` was afterwards added to the second root `3`, which
also holds the file `b` (`4`), so the parent of `x` is `3`. -/
def sharedHeap : Heap :=
  [ { path := [], parent := none, kind := .catalog [1] },
    { path := ['a'], parent := some 0, kind := .catalog [2] },
    { path := ['x'], parent := some 3, kind := .catalog [] },
    { path := [], parent := none, kind := .catalog [4, 2] },
    { path := ['b'], parent := some 3, kind := .file [] } ]

/-! ## Fuel -/

theorem rootCatalog_mono (h : Heap) :
    ∀ (f f2 c r : Nat), rootCatalog h f c = some r → f ≤ f2 → rootCatalog h f2 c = some r := by
  intro f
  induction f with
  | zero => intro f2 c r hr; simp [rootCatalog] at hr
  | succ k ih =>
    intro f2 c r hr hle
    obtain ⟨m, rfl⟩ : ∃ m, f2 = m + 1 := ⟨f2 - 1, by omega⟩
    simp only [rootCatalog] at hr ⊢
    cases hc : h[c]? with
    | none => simp [hc] at hr
    | some it =>
      simp only [hc] at hr ⊢
      cases hp : it.parent with
      | none => simpa [hp] using hr
      | some q =>
        simp only [hp] at hr ⊢
        exact ih m q r hr (by omega)

theorem scanItems_mono (h : Heap) (rec1 rec2 : Nat → Str → Option (Option Nat))
    (hrec : ∀ i s r, rec1 i s = some r → rec2 i s = some r) (itemName subPath : Str) :
    ∀ (items : List Nat) (r : Option Nat),
      scanItems h rec1 itemName subPath items = some r →
      scanItems h rec2 itemName subPath items = some r := by
  intro items
  induction items with
  | nil => intro r hr; simpa [scanItems] using hr
  | cons i rest ih =>
    intro r hr
    simp only [scanItems] at hr ⊢
    cases hi : h[i]? with
    | none => simp [hi] at hr
    | some it =>
      simp only [hi] at hr ⊢
      by_cases hn : it.path = itemName
      · simp only [hn, if_true] at hr ⊢
        by_cases hs : subPath.isEmpty = true
        · simpa [hs] using hr
        · simp only [hs] at hr ⊢
          by_cases hcat : it.isCatalog = true
          · simp only [hcat, if_true] at hr ⊢
            simp only [Bool.false_eq_true, if_false] at hr ⊢
            exact hrec _ _ _ hr
          · simpa [hcat] using hr
      · simp only [hn, if_false] at hr ⊢
        exact ih r hr

theorem getItem_mono (h : Heap) (lf lf2 : Nat) (hlf : lf ≤ lf2) :
    ∀ (fuel fuel2 d : Nat) (p : Str) (r : Option Nat),
      getItem h lf fuel d p = some r → fuel ≤ fuel2 → getItem h lf2 fuel2 d p = some r := by
  intro fuel
  induction fuel with
  | zero => intro fuel2 d p r hr; simp [getItem] at hr
  | succ k ih =>
    intro fuel2 d p r hr hle
    obtain ⟨m, rfl⟩ : ∃ m, fuel2 = m + 1 := ⟨fuel2 - 1, by omega⟩
    simp only [getItem] at hr ⊢
    by_cases he : p.isEmpty = true
    · simpa [he] using hr
    · simp only [he] at hr ⊢
      simp only [Bool.false_eq_true, if_false] at hr ⊢
      by_cases hs : p.head? = some '/'
      · simp only [hs, if_true] at hr ⊢
        cases hroot : rootCatalog h lf d with
        | none => simp [hroot] at hr
        | some q =>
          simp only [hroot] at hr
          rw [rootCatalog_mono h lf lf2 d q hroot hlf]
          exact ih m q _ r hr (by omega)
      · simp only [hs, if_false] at hr ⊢
        cases hd : h[d]? with
        | none => simp [hd] at hr
        | some self =>
          simp only [hd] at hr ⊢
          cases hk : self.kind with
          | item => simp [hk] at hr
          | file c => simp [hk] at hr
          | catalog items =>
            simp only [hk] at hr ⊢
            exact scanItems_mono h _ _ (fun i s r2 h2 => ih m i s r2 h2 (by omega)) _ _ items r hr

/-! ## Parent chains -/

theorem rootCatalog_of_chain (h : Heap) :
    ∀ (c : List Nat) (d loopFuel : Nat), isParentChain h (d :: c) = true →
      c.length < loopFuel → rootCatalog h loopFuel d = (d :: c).getLast? := by
  intro c
  induction c with
  | nil =>
    intro d loopFuel hc hl
    obtain ⟨n, rfl⟩ : ∃ n, loopFuel = n + 1 := ⟨loopFuel - 1, by simp at hl; omega⟩
    simp only [isParentChain] at hc
    cases hd : h[d]? with
    | none => simp [hd] at hc
    | some it =>
      simp only [hd] at hc
      cases hp : it.parent with
      | none => simp [rootCatalog, hd, hp]
      | some q => simp [hp] at hc
  | cons b rest ih =>
    intro d loopFuel hc hl
    obtain ⟨n, rfl⟩ : ∃ n, loopFuel = n + 1 := ⟨loopFuel - 1, by simp at hl; omega⟩
    simp only [isParentChain, Bool.and_eq_true] at hc
    obtain ⟨h1, h2⟩ := hc
    cases hd : h[d]? with
    | none => simp [hd] at h1
    | some it =>
      simp only [hd, beq_iff_eq] at h1
      have hrec := ih b n h2 (by simp at hl; omega)
      simp only [rootCatalog, hd, h1, hrec]
      simp [List.getLast?_cons_cons]

theorem isParentChain_singleton (h : Heap) (r : Nat) :
    isParentChain h [r] = true ↔ ∃ it, h[r]? = some it ∧ it.parent = none := by
  simp only [isParentChain]
  cases h[r]? with
  | none => simp
  | some it => cases hp : it.parent <;> simp [hp]

theorem isParentChain_cons_cons (h : Heap) (a b : Nat) (rest : List Nat) :
    isParentChain h (a :: b :: rest) = true ↔
      (∃ it, h[a]? = some it ∧ it.parent = some b) ∧ isParentChain h (b :: rest) = true := by
  simp only [isParentChain, Bool.and_eq_true]
  cases h[a]? with
  | none => simp
  | some it => simp

theorem intercalate_append_singleton (sep : Str) (x a : Str) (xs : List Str) :
    List.intercalate sep ((a :: xs) ++ [x]) = List.intercalate sep (a :: xs) ++ sep ++ x := by
  induction xs generalizing a with
  | nil => simp [List.intercalate]
  | cons b t ih =>
    have := ih b
    simp [List.intercalate] at this ⊢
    simp [this]

theorem getFullPath_of_chain (h : Heap) :
    ∀ (c : List Nat) (n fuel : Nat), isParentChain h (n :: c) = true →
      (∀ r, (n :: c).getLast? = some r → nameOf h r = []) →
      (∀ a ∈ (n :: c).dropLast, nameOf h a ≠ []) →
      c.length < fuel →
      getFullPath h fuel n = some ('/' :: List.intercalate ['/'] (chainNames h (n :: c))) := by
  intro c
  induction c with
  | nil =>
    intro n fuel hc hroot _ hl
    obtain ⟨k, rfl⟩ : ∃ k, fuel = k + 1 := ⟨fuel - 1, by simp at hl; omega⟩
    obtain ⟨it, hit, hpar⟩ := (isParentChain_singleton h n).1 hc
    have hname : it.path = [] := by
      have := hroot n (by simp)
      simpa [nameOf, hit] using this
    simp [getFullPath, hit, hpar, hname, chainNames, List.intercalate]
  | cons b c ih =>
    intro n fuel hc hroot hne hl
    obtain ⟨k, rfl⟩ : ∃ k, fuel = k + 1 := ⟨fuel - 1, by simp at hl; omega⟩
    obtain ⟨⟨it, hit, hpar⟩, hc2⟩ := (isParentChain_cons_cons h n b c).1 hc
    have hnn : nameOf h n = it.path := by simp [nameOf, hit]
    cases c with
    | nil =>
      obtain ⟨pit, hpit, hppar⟩ := (isParentChain_singleton h b).1 hc2
      have hname : pit.path = [] := by
        have := hroot b (by simp)
        simpa [nameOf, hpit] using this
      simp [getFullPath, hit, hpar, hpit, hname, chainNames, List.intercalate, hnn]
    | cons r rest =>
      obtain ⟨⟨pit, hpit, hppar⟩, hc3⟩ := (isParentChain_cons_cons h b r rest).1 hc2
      have hbn : nameOf h b = pit.path := by simp [nameOf, hpit]
      have hbne : pit.path ≠ [] := by
        rw [← hbn]; exact hne b (by simp)
      have hbe : pit.path.isEmpty = false := by
        cases hq : pit.path with
        | nil => exact absurd hq hbne
        | cons x t => rfl
      have hnames : chainNames h (n :: b :: r :: rest)
          = chainNames h (b :: r :: rest) ++ [it.path] := by
        simp [chainNames, hnn]
      cases rest with
      | nil =>
        obtain ⟨git, hgit, hgpar⟩ := (isParentChain_singleton h r).1 hc3
        have hname : git.path = [] := by
          have := hroot r (by simp)
          simpa [nameOf, hgit] using this
        simp [getFullPath, hit, hpar, hpit, hppar, hgit, hname, hbe, chainNames,
          List.intercalate, hnn, hbn]
      | cons s rest2 =>
        obtain ⟨⟨git, hgit, hgpar⟩, hc4⟩ := (isParentChain_cons_cons h r s rest2).1 hc3
        have hrne : git.path ≠ [] := by
          have := hne r (by simp)
          simpa [nameOf, hgit] using this
        have hre : git.path.isEmpty = false := by
          cases hq : git.path with
          | nil => exact absurd hq hrne
          | cons x t => rfl
        have hrec := ih b k hc2
          (by intro q hq; exact hroot q (by simpa using hq))
          (by intro a ha; exact hne a (by simp at ha ⊢; tauto))
          (by simp at hl ⊢; omega)
        have hcn : ∃ a xs, chainNames h (b :: r :: s :: rest2) = a :: xs := by
          cases hq : chainNames h (b :: r :: s :: rest2) with
          | nil => simp [chainNames] at hq
          | cons a xs => exact ⟨a, xs, rfl⟩
        obtain ⟨a, xs, hax⟩ := hcn
        rw [hnames, hax, intercalate_append_singleton, ← hax]
        simp [getFullPath, hit, hpar, hpit, hppar, hgit, hbe, hre, hrec]

/-! ## Doubled separators -/

theorem hasDoubleSlash_of_infix (s : Str) (hs : ['/', '/'] <:+: s) :
    hasDoubleSlash s = true := by
  induction s with
  | nil => simp at hs
  | cons a t ih =>
    rcases List.infix_cons_iff.1 hs with hpre | hin
    · obtain ⟨u, hu⟩ := hpre
      simp at hu
      obtain ⟨rfl, rfl⟩ := hu
      simp [hasDoubleSlash]
    · have := ih hin
      cases t with
      | nil => simp [hasDoubleSlash] at this
      | cons b r => simp [hasDoubleSlash, this]

theorem hasDoubleSlash_cons_ne (a : Char) (s : Str) (ha : a ≠ '/') :
    hasDoubleSlash (a :: s) = hasDoubleSlash s := by
  cases s with
  | nil => simp [hasDoubleSlash]
  | cons b r => simp [hasDoubleSlash, ha]

theorem hasDoubleSlash_append (x t : Str) (hx : '/' ∉ x) :
    hasDoubleSlash (x ++ t) = hasDoubleSlash t := by
  induction x with
  | nil => rfl
  | cons a r ih =>
    simp only [List.mem_cons, not_or] at hx
    rw [List.cons_append, hasDoubleSlash_cons_ne _ _ (fun e => hx.1 e.symm), ih hx.2]

theorem hasDoubleSlash_slash_cons (x t : Str) (hx : '/' ∉ x) (hne : x ≠ []) :
    hasDoubleSlash ('/' :: (x ++ t)) = hasDoubleSlash t := by
  cases x with
  | nil => exact absurd rfl hne
  | cons a r =>
    have ha : a ≠ '/' := fun e => hx (by simp [e])
    rw [← hasDoubleSlash_append (a :: r) t hx]
    simp [hasDoubleSlash, ha]

theorem hasDoubleSlash_intercalate (names : List Str)
    (hn : ∀ x ∈ names, x ≠ [] ∧ '/' ∉ x) :
    hasDoubleSlash ('/' :: List.intercalate ['/'] names) = false := by
  induction names with
  | nil => simp [List.intercalate, hasDoubleSlash]
  | cons x xs ih =>
    obtain ⟨hne, hx⟩ := hn x (by simp)
    cases xs with
    | nil =>
      have := hasDoubleSlash_slash_cons x [] hx hne
      simpa [List.intercalate, hasDoubleSlash] using this
    | cons y ys =>
      have hrec := ih (fun z hz => hn z (by simp at hz ⊢; tauto))
      have e : List.intercalate ['/'] (x :: y :: ys)
          = x ++ '/' :: List.intercalate ['/'] (y :: ys) := by
        simp [List.intercalate]
      rw [e, hasDoubleSlash_slash_cons x _ hx hne, hrec]

/-! ## Splitting a path and scanning the items -/

theorem splitPath_eq (p : Str) :
    splitPath p
      = (p.takeWhile (fun ch => ch != '/'), (p.dropWhile (fun ch => ch != '/')).drop 1) := by
  have key : ∀ q : Str,
      (match find '/' q with
        | none => (q, ([] : Str))
        | some pos => (q.take pos, q.drop (pos + 1)))
      = (q.takeWhile (fun ch => ch != '/'), (q.dropWhile (fun ch => ch != '/')).drop 1) := by
    intro q
    induction q with
    | nil => simp [find]
    | cons x xs ih =>
      by_cases hx : x = '/'
      · simp [find, hx]
      · cases hf : find '/' xs with
        | none =>
          rw [hf] at ih
          simp only [Prod.mk.injEq] at ih
          simp [find, hx, hf, ← ih.1, ← ih.2]
        | some k =>
          rw [hf] at ih
          simp only [Prod.mk.injEq] at ih
          simp [find, hx, hf, ← ih.1, ← ih.2]
  exact key p

theorem splitPath_fst (p : Str) : (splitPath p).1 = firstSegment p := by
  rw [splitPath_eq]; rfl

theorem splitPath_append_slash (name t : Str) (hn : '/' ∉ name) :
    splitPath (name ++ '/' :: t) = (name, t) := by
  rw [splitPath_eq]
  induction name with
  | nil => simp
  | cons a r ih =>
    simp only [List.mem_cons, not_or] at hn
    have ha : a ≠ '/' := fun e => hn.1 e.symm
    have := ih hn.2
    simp only [Prod.mk.injEq] at this
    simp [ha, this.1, this.2]

theorem splitPath_no_slash (name : Str) (hn : '/' ∉ name) :
    splitPath name = (name, []) := by
  rw [splitPath_eq]
  induction name with
  | nil => simp
  | cons a r ih =>
    simp only [List.mem_cons, not_or] at hn
    have ha : a ≠ '/' := fun e => hn.1 e.symm
    have := ih hn.2
    simp only [Prod.mk.injEq] at this
    simp [ha, this.1, this.2]

theorem head_ne_slash (name t : Str) (hn : '/' ∉ name) (hne : name ≠ []) :
    ¬ ((name ++ t).head? = some '/') := by
  cases name with
  | nil => exact absurd rfl hne
  | cons a r =>
    simp only [List.mem_cons, not_or] at hn
    simpa using fun e => hn.1 e.symm

theorem scanItems_skip (h : Heap) (recur : Nat → Str → Option (Option Nat))
    (itemName subPath : Str) (pre rest : List Nat)
    (hpre : ∀ i ∈ pre, ∃ it, h[i]? = some it ∧ it.path ≠ itemName) :
    scanItems h recur itemName subPath (pre ++ rest)
      = scanItems h recur itemName subPath rest := by
  induction pre with
  | nil => rfl
  | cons i r ih =>
    obtain ⟨it, hit, hne⟩ := hpre i (by simp)
    simp only [List.cons_append, scanItems, hit, hne, if_false]
    exact ih (fun j hj => hpre j (by simp [hj]))

theorem scanItems_not_found (h : Heap) (recur : Nat → Str → Option (Option Nat))
    (itemName subPath : Str) (items : List Nat)
    (hno : ∀ i ∈ items, ∃ it, h[i]? = some it ∧ it.path ≠ itemName) :
    scanItems h recur itemName subPath items = some none := by
  have := scanItems_skip h recur itemName subPath items [] hno
  simpa [scanItems] using this

/-! ## The heap after `addItem` -/

theorem addItem_spec (h : Heap) (d x : Nat) (self it : FileSystemItem) (items : List Nat)
    (hd : h[d]? = some self) (hk : self.kind = .catalog items) (hx : h[x]? = some it) :
    ∃ h2, addItem h d x = some h2 ∧ h2.length = h.length ∧
      ∀ j, h2[j]? =
        if j = d then
          some { path := self.path, parent := if x = d then some d else self.parent,
                 kind := .catalog (items ++ [x]) }
        else if j = x then some { it with parent := some d }
        else h[j]? := by
  have hxl : x < h.length := by
    rcases Nat.lt_or_ge x h.length with hlt | hge
    · exact hlt
    · rw [List.getElem?_eq_none hge] at hx; cases hx
  have hdl : d < h.length := by
    rcases Nat.lt_or_ge d h.length with hlt | hge
    · exact hlt
    · rw [List.getElem?_eq_none hge] at hd; cases hd
  by_cases hxd : x = d
  · subst hxd
    have e : it = self := by rw [hx] at hd; exact Option.some.inj hd
    subst e
    refine ⟨(h.set x { it with parent := some x }).set x
      { path := it.path, parent := some x, kind := .catalog (items ++ [x]) }, ?_, ?_, ?_⟩
    · simp only [addItem, hx, List.getElem?_set, hxl, if_true, hk]
    · simp
    · intro j
      by_cases hj : j = x
      · subst hj
        simp [List.getElem?_set, hxl]
      · have hj2 : ¬ x = j := fun e => hj e.symm
        simp [List.getElem?_set, hj, hj2]
  · have hdx : ¬ d = x := fun e => hxd e.symm
    refine ⟨(h.set x { it with parent := some d }).set d
      { self with kind := .catalog (items ++ [x]) }, ?_, ?_, ?_⟩
    · simp only [addItem, hx, List.getElem?_set, hxd, if_false, hd, hk]
    · simp
    · intro j
      by_cases hj : j = d
      · subst hj
        simp [List.getElem?_set, hdl, hxd]
      · have hj2 : ¬ d = j := fun e => hj e.symm
        by_cases hjx : j = x
        · subst hjx
          simp [List.getElem?_set, hj, hj2, hxl]
        · have hjx2 : ¬ x = j := fun e => hjx e.symm
          simp [List.getElem?_set, hj, hj2, hjx, hjx2]

theorem nameOf_after_addItem (h h2 : Heap) (d x : Nat) (self it : FileSystemItem)
    (items : List Nat) (hd : h[d]? = some self) (hx : h[x]? = some it)
    (hspec : ∀ j, h2[j]? =
        if j = d then
          some { path := self.path, parent := if x = d then some d else self.parent,
                 kind := .catalog (items ++ [x]) }
        else if j = x then some { it with parent := some d }
        else h[j]?) (j : Nat) :
    nameOf h2 j = nameOf h j := by
  unfold nameOf
  rw [hspec j]
  by_cases hj : j = d
  · subst hj; simp [hd]
  · by_cases hjx : j = x
    · subst hjx; simp [hj, hx]
    · simp [hj, hjx]

/-! ## The listing of `ls` -/

theorem ls_fold (h : Heap) :
    ∀ (items : List Nat) (acc : Str), (∀ i ∈ items, ∃ it, h[i]? = some it) →
      items.foldl
        (fun ss item =>
          match ss, h[item]? with
          | some s, some it => some (s ++ it.path ++ ['\n'])
          | _, _ => none)
        (some acc)
      = some (acc ++ referenceListing (items.map (nameOf h))) := by
  intro items
  induction items with
  | nil => intro acc _; simp [referenceListing]
  | cons i rest ih =>
    intro acc hv
    obtain ⟨it, hit⟩ := hv i (by simp)
    simp only [List.foldl_cons, hit]
    rw [ih _ (fun j hj => hv j (by simp [hj]))]
    simp [referenceListing, nameOf, hit]

theorem ls_eq (h : Heap) (cur : Nat) (self : FileSystemItem) (items : List Nat)
    (hc : h[cur]? = some self) (hk : self.kind = .catalog items)
    (hv : ∀ i ∈ items, ∃ it, h[i]? = some it) :
    ls h cur = some (referenceListing (items.map (nameOf h))) := by
  simp only [ls, hc, hk]
  rw [ls_fold h items [] hv]
  simp

/-! ## The parent/children invariant -/

theorem linkedOnce_iff (h : Heap) (root i : Nat) :
    linkedOnce h root i = true ↔
      ∀ it, h[i]? = some it →
        (it.parent = none → i = root) ∧
        (∀ p, it.parent = some p →
          ∃ par its, h[p]? = some par ∧ par.kind = .catalog its ∧ its.count i = 1) := by
  unfold linkedOnce
  cases hi : h[i]? with
  | none => simp
  | some it =>
    cases hp : it.parent with
    | none => simp [hp]
    | some p =>
      cases hq : h[p]? with
      | none => simp [hp, hq]
      | some par =>
        cases hk : par.kind with
        | item => simp [hp, hq, hk]
        | file c => simp [hp, hq, hk]
        | catalog its => simp [hp, hq, hk]

theorem invariant_append_then_addItem (h : Heap) (root d : Nat) (self nd : FileSystemItem)
    (items : List Nat) (hinv : parentChildInvariant h root)
    (hd : h[d]? = some self) (hk : self.kind = .catalog items)
    (hitems : ∀ j ∈ items, j < h.length) (hnd : nd.parent = some d) :
    ∃ h2, addItem (h ++ [nd]) d h.length = some h2 ∧ parentChildInvariant h2 root := by
  have hdl : d < h.length := by
    rcases Nat.lt_or_ge d h.length with hlt | hge
    · exact hlt
    · rw [List.getElem?_eq_none hge] at hd; cases hd
  have hxd : h.length ≠ d := by omega
  have hd1 : (h ++ [nd])[d]? = some self := by
    rw [List.getElem?_append_left hdl]; exact hd
  have hx1 : (h ++ [nd])[h.length]? = some nd := by simp
  obtain ⟨h2, hadd, hlen, hspec⟩ := addItem_spec (h ++ [nd]) d h.length self nd items hd1 hk hx1
  refine ⟨h2, hadd, ?_⟩
  have hxn : h.length ∉ items := fun hm => Nat.lt_irrefl _ (hitems _ hm)
  have hold : ∀ j, j < h.length → j ≠ d → h2[j]? = h[j]? := by
    intro j hj hjd
    rw [hspec j]
    have hjx : j ≠ h.length := by omega
    simp [hjd, hjx, List.getElem?_append_left hj]
  have hd2 : h2[d]? = some { self with kind := .catalog (items ++ [h.length]) } := by
    rw [hspec d]; simp [hxd]
  have hx2 : h2[h.length]? = some { nd with parent := some d } := by
    rw [hspec h.length]; simp [hxd]
  -- the parent of an old node, seen in the new heap
  have hparent : ∀ (i p : Nat) (par : FileSystemItem) (its : List Nat), i < h.length →
      h[p]? = some par → par.kind = .catalog its → its.count i = 1 →
      ∃ (par2 : FileSystemItem) (its2 : List Nat),
        h2[p]? = some par2 ∧ par2.kind = .catalog its2 ∧ its2.count i = 1 := by
    intro i p par its hi hp hpk hcount
    have hpl : p < h.length := by
      rcases Nat.lt_or_ge p h.length with hlt | hge
      · exact hlt
      · rw [List.getElem?_eq_none hge] at hp; cases hp
    by_cases hpd : p = d
    · subst hpd
      have e : par = self := by rw [hp] at hd; exact Option.some.inj hd
      subst e
      have e2 : its = items := by rw [hpk] at hk; exact Kind.catalog.inj hk
      subst e2
      refine ⟨_, _, hd2, rfl, ?_⟩
      have hne : i ∉ [h.length] := by
        simp only [List.mem_singleton]; omega
      simp [List.count_append, hcount, List.count_eq_zero_of_not_mem hne]
    · exact ⟨par, its, by rw [hold p hpl hpd]; exact hp, hpk, hcount⟩
  intro i hi
  rw [hlen] at hi
  rw [linkedOnce_iff]
  intro it hit
  by_cases hix : i = h.length
  · subst hix
    rw [hx2] at hit
    have e := Option.some.inj hit
    subst e
    refine ⟨fun hn => by simp at hn, ?_⟩
    intro p hp
    have e : d = p := by simpa using hp
    subst e
    refine ⟨_, _, hd2, rfl, ?_⟩
    simp [List.count_append, List.count_eq_zero_of_not_mem hxn]
  · have hil : i < h.length := by simp at hi; omega
    have hiold := (linkedOnce_iff h root i).1 (hinv i hil)
    by_cases hid : i = d
    · subst hid
      rw [hd2] at hit
      have e := Option.some.inj hit
      subst e
      obtain ⟨h1, h2'⟩ := hiold self hd
      refine ⟨fun hn => h1 hn, ?_⟩
      intro p hp
      obtain ⟨par, its, hq, hqk, hcount⟩ := h2' p hp
      exact hparent i p par its hil hq hqk hcount
    · rw [hold i hil hid] at hit
      obtain ⟨h1, h2'⟩ := hiold it hit
      refine ⟨h1, ?_⟩
      intro p hp
      obtain ⟨par, its, hq, hqk, hcount⟩ := h2' p hp
      exact hparent i p par its hil hq hqk hcount

/-! ## Termination -/

theorem rootCatalog_total (h : Heap) (depth : Nat → Nat) (hwt : WellTyped h)
    (hac : Acyclic h depth) :
    ∀ (n i : Nat) (it : FileSystemItem) (its : List Nat), depth i < n →
      h[i]? = some it → it.kind = .catalog its →
      ∃ (r : Nat) (rit : FileSystemItem) (rits : List Nat),
        rootCatalog h n i = some r ∧ h[r]? = some rit ∧ rit.kind = .catalog rits := by
  intro n
  induction n with
  | zero => intro i it its hlt; omega
  | succ k ih =>
    intro i it its hlt hi hk
    cases hp : it.parent with
    | none => exact ⟨i, it, its, by simp [rootCatalog, hi, hp], hi, hk⟩
    | some p =>
      obtain ⟨par, pits, hpar, hpk⟩ := (hwt i it hi).1 p hp
      have hdp := hac i it p hi hp
      obtain ⟨r, rit, rits, hr, hrit, hrk⟩ := ih p par pits (by omega) hpar hpk
      exact ⟨r, rit, rits, by simp [rootCatalog, hi, hp, hr], hrit, hrk⟩

theorem splitPath_snd_length (p : Str) (hp : p ≠ []) :
    (splitPath p).2.length < p.length := by
  rw [splitPath_eq]
  cases p with
  | nil => exact absurd rfl hp
  | cons a t =>
    have h1 : ((a :: t).dropWhile (fun ch => ch != '/')).length ≤ (a :: t).length :=
      (List.dropWhile_sublist _).length_le
    simp only [List.length_drop]
    simp only [List.length_cons] at h1 ⊢
    omega

theorem scanItems_total (h : Heap) (recur : Nat → Str → Option (Option Nat))
    (itemName subPath : Str) (items : List Nat)
    (hv : ∀ j ∈ items, ∃ c : FileSystemItem, h[j]? = some c)
    (hrec : ∀ (j : Nat) (c : FileSystemItem) (its : List Nat), h[j]? = some c →
      c.kind = .catalog its → subPath ≠ [] → ∃ r, recur j subPath = some r) :
    ∃ r, scanItems h recur itemName subPath items = some r := by
  induction items with
  | nil => exact ⟨none, rfl⟩
  | cons j rest ih =>
    obtain ⟨c, hc⟩ := hv j (by simp)
    simp only [scanItems, hc]
    by_cases hn : c.path = itemName
    · simp only [hn, if_true]
      cases hs : subPath with
      | nil => exact ⟨some j, by simp⟩
      | cons a t =>
        have hne : subPath ≠ [] := by rw [hs]; simp
        cases hk : c.kind with
        | item => exact ⟨none, by simp [FileSystemItem.isCatalog, hk]⟩
        | file content => exact ⟨none, by simp [FileSystemItem.isCatalog, hk]⟩
        | catalog its =>
          obtain ⟨r, hr⟩ := hrec j c its hc hk hne
          rw [hs] at hr
          exact ⟨r, by simp [FileSystemItem.isCatalog, hk, hr]⟩
    · simp only [hn, if_false]
      exact ih (fun k hk => hv k (by simp [hk]))

theorem getItem_total (h : Heap) (depth : Nat → Nat) (loopFuel : Nat) (hwt : WellTyped h)
    (hac : Acyclic h depth) (hlf : ∀ i, i < h.length → depth i < loopFuel) :
    ∀ (fuel d : Nat) (self : FileSystemItem) (items : List Nat) (p : Str),
      h[d]? = some self → self.kind = .catalog items → p.length < fuel →
      ∃ r, getItem h loopFuel fuel d p = some r := by
  intro fuel
  induction fuel with
  | zero => intro d self items p _ _ hl; omega
  | succ k ih =>
    intro d self items p hd hk hl
    cases p with
    | nil => exact ⟨none, by simp [getItem]⟩
    | cons a t =>
      have hdl : d < h.length := by
        rcases Nat.lt_or_ge d h.length with hlt | hge
        · exact hlt
        · rw [List.getElem?_eq_none hge] at hd; cases hd
      by_cases ha : a = '/'
      · subst ha
        obtain ⟨r, rit, rits, hr, hrit, hrk⟩ :=
          rootCatalog_total h depth hwt hac loopFuel d self items (hlf d hdl) hd hk
        obtain ⟨res, hres⟩ := ih r rit rits t hrit hrk (by simp at hl; omega)
        exact ⟨res, by simp [getItem, hr, hres]⟩
      · have hs : ¬ ((a :: t).head? = some '/') := by simpa using ha
        have he : (a :: t).isEmpty = false := rfl
        simp only [getItem, he, hs, hd, hk, Bool.false_eq_true, if_false]
        apply scanItems_total h _ _ _ items ((hwt d self hd).2 items hk)
        intro j c its hc hck _
        have hlen := splitPath_snd_length (a :: t) (by simp)
        exact ih j c its _ hc hck (by omega)

theorem mainHeap_cases (i : Nat) (it : FileSystemItem) (hi : mainHeap[i]? = some it) :
    i < 6 ∧ mainHeap[i]? = some it := by
  refine ⟨?_, hi⟩
  rcases Nat.lt_or_ge i mainHeap.length with hlt | hge
  · exact hlt
  · rw [List.getElem?_eq_none hge] at hi; cases hi

theorem mainHeap_wellTyped : WellTyped mainHeap := by
  intro i it hi
  obtain ⟨hlt, _⟩ := mainHeap_cases i it hi
  interval_cases i <;>
    (simp only [mainHeap, List.getElem?_cons_zero, List.getElem?_cons_succ,
      Option.some.injEq] at hi
     subst hi
     refine ⟨?_, ?_⟩
     · intro p hp
       cases hp <;> exact ⟨_, _, rfl, rfl⟩
     · intro its hk j hj
       cases hk <;> (revert j; simp [mainHeap]))

theorem mainHeap_acyclic : Acyclic mainHeap (fun i => i) := by
  intro i it p hi hp
  obtain ⟨hlt, _⟩ := mainHeap_cases i it hi
  interval_cases i <;>
    (simp only [mainHeap, List.getElem?_cons_zero, List.getElem?_cons_succ,
      Option.some.injEq] at hi
     subst hi
     cases hp <;> decide)

/-! ## Resolution along the items -/

theorem scanItems_found (h : Heap) (recur : Nat → Str → Option (Option Nat))
    (itemName subPath : Str) (n : Nat) :
    ∀ items : List Nat, scanItems h recur itemName subPath items = some (some n) →
      ∃ (j : Nat) (it : FileSystemItem), j ∈ items ∧ h[j]? = some it ∧ it.path = itemName ∧
        ((subPath = [] ∧ n = j) ∨
         (subPath ≠ [] ∧ (∃ its, it.kind = .catalog its) ∧
            recur j subPath = some (some n))) := by
  intro items
  induction items with
  | nil => intro hs; simp [scanItems] at hs
  | cons i rest ih =>
    intro hs
    simp only [scanItems] at hs
    cases hi : h[i]? with
    | none => simp [hi] at hs
    | some it =>
      simp only [hi] at hs
      by_cases hn : it.path = itemName
      · simp only [hn, if_true] at hs
        cases hsub : subPath with
        | nil =>
          simp [hsub] at hs
          exact ⟨i, it, by simp, hi, hn, Or.inl ⟨rfl, hs.symm⟩⟩
        | cons a t =>
          rw [hsub] at hs
          cases hk : it.kind with
          | item => simp [FileSystemItem.isCatalog, hk] at hs
          | file c => simp [FileSystemItem.isCatalog, hk] at hs
          | catalog its =>
            simp [FileSystemItem.isCatalog, hk] at hs
            exact ⟨i, it, by simp, hi, hn, Or.inr ⟨by simp, ⟨its, hk⟩, hs⟩⟩
      · simp only [hn, if_false] at hs
        obtain ⟨j, jt, hj, hjt, hjn, hor⟩ := ih hs
        exact ⟨j, jt, by simp [hj], hjt, hjn, hor⟩

theorem getItem_result_mem (h : Heap) (loopFuel : Nat) (n : Nat) :
    ∀ (fuel d : Nat) (p : Str), getItem h loopFuel fuel d p = some (some n) →
      ∃ (c : Nat) (cat : FileSystemItem) (its : List Nat),
        h[c]? = some cat ∧ cat.kind = .catalog its ∧ n ∈ its := by
  intro fuel
  induction fuel with
  | zero => intro d p hg; simp [getItem] at hg
  | succ k ih =>
    intro d p hg
    simp only [getItem] at hg
    by_cases he : p.isEmpty = true
    · simp [he] at hg
    · simp only [he, Bool.false_eq_true, if_false] at hg
      by_cases hs : p.head? = some '/'
      · simp only [hs, if_true] at hg
        cases hr : rootCatalog h loopFuel d with
        | none => simp [hr] at hg
        | some r =>
          simp only [hr] at hg
          exact ih r _ hg
      · simp only [hs, if_false] at hg
        cases hd : h[d]? with
        | none => simp [hd] at hg
        | some self =>
          simp only [hd] at hg
          cases hk : self.kind with
          | item => simp [hk] at hg
          | file c => simp [hk] at hg
          | catalog items =>
            simp only [hk] at hg
            obtain ⟨j, jt, hj, hjt, _, hor⟩ := scanItems_found h _ _ _ n items hg
            rcases hor with ⟨_, rfl⟩ | ⟨_, _, hrec⟩
            · exact ⟨d, self, items, hd, hk, hj⟩
            · exact ih j _ hrec

theorem isItemChain_cons_cons (h : Heap) (a b : Nat) (rest : List Nat) :
    isItemChain h (a :: b :: rest) = true ↔
      (∃ (it : FileSystemItem) (its : List Nat),
        h[a]? = some it ∧ it.kind = .catalog its ∧ b ∈ its) ∧
      isItemChain h (b :: rest) = true := by
  simp only [isItemChain, Bool.and_eq_true]
  cases ha : h[a]? with
  | none => simp
  | some it =>
    cases hk : it.kind with
    | item => simp [hk]
    | file c => simp [hk]
    | catalog its => simp [hk]

theorem parentChain_of_itemChain (h : Heap) (hpih : ParentIsHolder h) :
    ∀ (chain : List Nat) (a : Nat) (up : List Nat), isItemChain h (a :: chain) = true →
      isParentChain h (a :: up) = true →
      isParentChain h ((a :: chain).reverse ++ up) = true := by
  intro chain
  induction chain with
  | nil => intro a up _ hup; simpa using hup
  | cons b rest ih =>
    intro a up hic hup
    obtain ⟨⟨it, its, ha, hk, hb⟩, hrest⟩ := (isItemChain_cons_cons h a b rest).1 hic
    obtain ⟨child, hchild, hpar⟩ := hpih a it its ha hk b hb
    have hstep : isParentChain h (b :: a :: up) = true :=
      (isParentChain_cons_cons h b a up).2 ⟨⟨child, hchild, hpar⟩, hup⟩
    have := ih b (a :: up) hrest hstep
    simpa using this

theorem rootCatalog_eq_of_chain (h : Heap) (d r r2 : Nat) (up : List Nat) (loopFuel : Nat)
    (hch : isParentChain h (d :: up) = true) (hlast : (d :: up).getLast? = some r)
    (hr : rootCatalog h loopFuel d = some r2) : r2 = r := by
  have h1 := rootCatalog_mono h loopFuel (loopFuel + up.length + 1) d r2 hr (by omega)
  have h2 := rootCatalog_of_chain h up d (loopFuel + up.length + 1) hch (by omega)
  rw [hlast, h1] at h2
  exact Option.some.inj h2

theorem intercalate_cons_cons (s s2 : Str) (rest : List Str) :
    List.intercalate ['/'] (s :: s2 :: rest) = s ++ '/' :: List.intercalate ['/'] (s2 :: rest) := by
  simp [List.intercalate]

theorem intercalate_singleton (s : Str) : List.intercalate ['/'] [s] = s := by
  simp [List.intercalate]

theorem intercalate_ne_nil (s : Str) (rest : List Str) (hs : s ≠ []) :
    List.intercalate ['/'] (s :: rest) ≠ [] := by
  cases rest with
  | nil => rw [intercalate_singleton]; exact hs
  | cons s2 r => rw [intercalate_cons_cons]; simp [hs]

/-- The resolution of a relative path of plain segments follows the items:
a result `n` comes with an item chain from the start whose names are the
segments. -/
theorem getItem_segments_chain (h : Heap) (loopFuel : Nat) (n : Nat) :
    ∀ (segs : List Str) (fuel a0 : Nat), segs ≠ [] → (∀ s ∈ segs, s ≠ [] ∧ '/' ∉ s) →
      getItem h loopFuel fuel a0 (List.intercalate ['/'] segs) = some (some n) →
      ∃ chain : List Nat, isItemChain h (a0 :: chain) = true ∧
        chain.map (nameOf h) = segs ∧ (a0 :: chain).getLast? = some n := by
  intro segs
  induction segs with
  | nil => intro fuel a0 hne; exact absurd rfl hne
  | cons s rest ih =>
    intro fuel a0 _ hseg hg
    obtain ⟨hsne, hsns⟩ := hseg s (by simp)
    cases fuel with
    | zero => simp [getItem] at hg
    | succ k =>
      have hpne : List.intercalate ['/'] (s :: rest) ≠ [] := intercalate_ne_nil s rest hsne
      have he : (List.intercalate ['/'] (s :: rest)).isEmpty = false := by
        cases hq : List.intercalate ['/'] (s :: rest) with
        | nil => exact absurd hq hpne
        | cons a t => rfl
      cases rest with
      | nil =>
        rw [intercalate_singleton] at hg he
        have hs := head_ne_slash s [] hsns hsne
        rw [List.append_nil] at hs
        simp only [getItem, he, hs, Bool.false_eq_true, if_false] at hg
        cases hd : h[a0]? with
        | none => simp [hd] at hg
        | some self =>
          simp only [hd] at hg
          cases hk : self.kind with
          | item => simp [hk] at hg
          | file c => simp [hk] at hg
          | catalog items =>
            simp only [hk, splitPath_no_slash s hsns] at hg
            obtain ⟨j, jt, hj, hjt, hjn, hor⟩ := scanItems_found h _ _ _ n items hg
            rcases hor with ⟨_, rfl⟩ | ⟨hne2, _⟩
            · refine ⟨[n], ?_, ?_, by simp⟩
              · rw [isItemChain_cons_cons]
                exact ⟨⟨self, items, hd, hk, hj⟩, by simp [isItemChain, hjt]⟩
              · simp [nameOf, hjt, hjn]
            · exact absurd rfl hne2
      | cons s2 rest2 =>
        rw [intercalate_cons_cons] at hg he
        have hs := head_ne_slash s ('/' :: List.intercalate ['/'] (s2 :: rest2)) hsns hsne
        simp only [getItem, he, hs, Bool.false_eq_true, if_false] at hg
        cases hd : h[a0]? with
        | none => simp [hd] at hg
        | some self =>
          simp only [hd] at hg
          cases hk : self.kind with
          | item => simp [hk] at hg
          | file c => simp [hk] at hg
          | catalog items =>
            simp only [hk, splitPath_append_slash s _ hsns] at hg
            obtain ⟨j, jt, hj, hjt, hjn, hor⟩ := scanItems_found h _ _ _ n items hg
            have hne2 : List.intercalate ['/'] (s2 :: rest2) ≠ [] :=
              intercalate_ne_nil s2 rest2 (hseg s2 (by simp)).1
            rcases hor with ⟨he2, _⟩ | ⟨_, _, hrec⟩
            · exact absurd he2 hne2
            · obtain ⟨chain, hchain, hnames, hlast⟩ :=
                ih k j (by simp) (fun x hx => hseg x (by simp [hx])) hrec
              refine ⟨j :: chain, ?_, ?_, ?_⟩
              · rw [isItemChain_cons_cons]
                exact ⟨⟨self, items, hd, hk, hj⟩, hchain⟩
              · simp [nameOf, hjt, hjn, hnames]
              · simpa [List.getLast?_cons_cons] using hlast

theorem isParentChain_last (h : Heap) :
    ∀ (c : List Nat) (r : Nat), isParentChain h c = true → c.getLast? = some r →
      isParentChain h [r] = true := by
  intro c
  induction c with
  | nil => intro r hc; simp [isParentChain] at hc
  | cons a rest ih =>
    intro r hc hl
    cases rest with
    | nil =>
      simp only [List.getLast?_singleton, Option.some.injEq] at hl
      subst hl
      exact hc
    | cons b rest2 =>
      rw [List.getLast?_cons_cons] at hl
      exact ih r ((isParentChain_cons_cons h a b rest2).1 hc).2 hl

/-- The full path of the last node of an item chain that starts at a root
with the empty name. -/
theorem getFullPath_of_itemChain (h : Heap) (hpih : ParentIsHolder h) (r n : Nat)
    (chain : List Nat) (fuel : Nat)
    (hroot : isParentChain h [r] = true) (hrn : nameOf h r = [])
    (hic : isItemChain h (r :: chain) = true)
    (hnames : ∀ a ∈ chain, nameOf h a ≠ [])
    (hlast : (r :: chain).getLast? = some n) (hl : chain.length < fuel) :
    getFullPath h fuel n = some ('/' :: List.intercalate ['/'] (chain.map (nameOf h))) := by
  have hpc := parentChain_of_itemChain h hpih chain r [] hic hroot
  rw [List.append_nil] at hpc
  cases hL : (r :: chain).reverse with
  | nil => simp at hL
  | cons m c =>
    have hhead : (r :: chain).reverse.head? = some n := by
      rw [List.head?_reverse]; exact hlast
    rw [hL] at hhead hpc
    simp only [List.head?_cons, Option.some.injEq] at hhead
    subst hhead
    have hdrop : (m :: c).dropLast = chain.reverse := by
      rw [← hL, List.dropLast_reverse]; rfl
    have hlen : c.length = chain.length := by
      have := congrArg List.length hL
      simp at this
      omega
    have hres := getFullPath_of_chain h c m fuel hpc
      (by
        intro q hq
        rw [← hL, List.getLast?_reverse] at hq
        simp only [List.head?_cons, Option.some.injEq] at hq
        rw [← hq]; exact hrn)
      (by
        intro a ha
        rw [hdrop] at ha
        exact hnames a (List.mem_reverse.1 ha))
      (by omega)
    rw [hres]
    simp [chainNames, hdrop]

theorem scanItems_unique (h : Heap) (recur : Nat → Str → Option (Option Nat))
    (name subPath : Str) (j : Nat) (jt : FileSystemItem) (hjt : h[j]? = some jt)
    (hname : jt.path = name) :
    ∀ items : List Nat, (∀ i ∈ items, ∃ c : FileSystemItem, h[i]? = some c) → j ∈ items →
      (∀ i ∈ items, nameOf h i = name → i = j) →
      scanItems h recur name subPath items =
        if subPath.isEmpty then some (some j)
        else if jt.isCatalog then recur j subPath else some none := by
  intro items
  induction items with
  | nil => intro _ hj; simp at hj
  | cons i rest ih =>
    intro hv hj huniq
    obtain ⟨c, hc⟩ := hv i (by simp)
    simp only [scanItems, hc]
    by_cases hn : c.path = name
    · have e : i = j := huniq i (by simp) (by simp [nameOf, hc, hn])
      subst e
      have e2 : c = jt := by rw [hc] at hjt; exact Option.some.inj hjt
      subst e2
      simp [hn]
    · simp only [hn, if_false]
      have hij : j ≠ i := by
        intro e
        subst e
        rw [hc] at hjt
        have e2 := Option.some.inj hjt
        subst e2
        exact hn hname
      have hj2 : j ∈ rest := by
        rcases List.mem_cons.1 hj with e | hm
        · exact absurd e hij
        · exact hm
      exact ih (fun k hk => hv k (by simp [hk])) hj2 (fun k hk => huniq k (by simp [hk]))

theorem itemChain_names (h : Heap) (hwn : WellNamed h) :
    ∀ (chain : List Nat) (a0 : Nat), isItemChain h (a0 :: chain) = true →
      ∀ a ∈ chain, nameOf h a ≠ [] ∧ '/' ∉ nameOf h a := by
  intro chain
  induction chain with
  | nil => intro a0 _ a ha; simp at ha
  | cons b rest ih =>
    intro a0 hic a ha
    obtain ⟨⟨it, its, hit, hk, hb⟩, hrest⟩ := (isItemChain_cons_cons h a0 b rest).1 hic
    rcases List.mem_cons.1 ha with e | hm
    · subst e; exact hwn a0 it its hit hk a hb
    · exact ih b hrest a hm

/-- The resolution of the names of an item chain, started at its first
element, returns its last element. -/
theorem getItem_along_chain (h : Heap) (loopFuel : Nat) (hpih : ParentIsHolder h)
    (hwn : WellNamed h) (hun : UniqueNames h) :
    ∀ (chain : List Nat) (a0 fuel n : Nat), chain ≠ [] → isItemChain h (a0 :: chain) = true →
      (a0 :: chain).getLast? = some n → chain.length ≤ fuel →
      getItem h loopFuel fuel a0 (List.intercalate ['/'] (chain.map (nameOf h)))
        = some (some n) := by
  intro chain
  induction chain with
  | nil => intro a0 fuel n hne; exact absurd rfl hne
  | cons b rest ih =>
    intro a0 fuel n _ hic hlast hl
    obtain ⟨k, rfl⟩ : ∃ k, fuel = k + 1 := ⟨fuel - 1, by simp at hl; omega⟩
    obtain ⟨⟨self, items, hd, hk, hb⟩, hrest⟩ := (isItemChain_cons_cons h a0 b rest).1 hic
    obtain ⟨hbne, hbns⟩ := hwn a0 self items hd hk b hb
    obtain ⟨bt, hbt, _⟩ := hpih a0 self items hd hk b hb
    have hbn : nameOf h b = bt.path := by simp [nameOf, hbt]
    have hv : ∀ i ∈ items, ∃ c : FileSystemItem, h[i]? = some c := by
      intro i hi
      obtain ⟨c, hc, _⟩ := hpih a0 self items hd hk i hi
      exact ⟨c, hc⟩
    have huniq : ∀ i ∈ items, nameOf h i = nameOf h b → i = b :=
      fun i hi e => hun a0 self items hd hk i hi b hb e
    have hscan := fun sub => scanItems_unique h (getItem h loopFuel k) (nameOf h b) sub b bt hbt
      hbn.symm items hv hb huniq
    cases rest with
    | nil =>
      simp only [List.getLast?_cons_cons, List.getLast?_singleton, Option.some.injEq] at hlast
      subst hlast
      have he : (nameOf h b).isEmpty = false := by
        cases hq : nameOf h b with
        | nil => exact absurd hq hbne
        | cons a t => rfl
      have hs := head_ne_slash (nameOf h b) [] hbns hbne
      rw [List.append_nil] at hs
      simp only [List.map_cons, List.map_nil, intercalate_singleton]
      simp only [getItem, he, hs, hd, hk, Bool.false_eq_true, if_false,
        splitPath_no_slash _ hbns, hscan]
      simp
    | cons b2 rest2 =>
      rw [List.getLast?_cons_cons] at hlast
      have hrec := ih b k n (by simp) hrest hlast (by simp at hl ⊢; omega)
      obtain ⟨⟨bself, bitems, hbd, hbk, _⟩, _⟩ := (isItemChain_cons_cons h b b2 rest2).1 hrest
      have hbcat : bt.isCatalog = true := by
        have e : bt = bself := by rw [hbt] at hbd; exact Option.some.inj hbd
        subst e
        simp [FileSystemItem.isCatalog, hbk]
      obtain ⟨hb2ne, _⟩ := hwn b bself bitems hbd hbk b2 (by
        have := (isItemChain_cons_cons h b b2 rest2).1 hrest
        obtain ⟨⟨x, xs, hx, hxk, hm⟩, _⟩ := this
        rw [hbd] at hx
        have e := Option.some.inj hx
        subst e
        rw [hbk] at hxk
        have e2 := Kind.catalog.inj hxk
        subst e2
        exact hm)
      have hsubne : List.intercalate ['/'] ((b2 :: rest2).map (nameOf h)) ≠ [] := by
        rw [List.map_cons]; exact intercalate_ne_nil _ _ hb2ne
      have hsube : (List.intercalate ['/'] ((b2 :: rest2).map (nameOf h))).isEmpty = false := by
        cases hq : List.intercalate ['/'] ((b2 :: rest2).map (nameOf h)) with
        | nil => exact absurd hq hsubne
        | cons a t => rfl
      have e : List.intercalate ['/'] ((b :: b2 :: rest2).map (nameOf h))
          = nameOf h b ++ '/' :: List.intercalate ['/'] ((b2 :: rest2).map (nameOf h)) := by
        simp only [List.map_cons]; exact intercalate_cons_cons _ _ _
      have he : (nameOf h b ++ '/' ::
          List.intercalate ['/'] ((b2 :: rest2).map (nameOf h))).isEmpty = false := by
        cases hq : nameOf h b with
        | nil => exact absurd hq hbne
        | cons a t => rfl
      have hs := head_ne_slash (nameOf h b)
        ('/' :: List.intercalate ['/'] ((b2 :: rest2).map (nameOf h))) hbns hbne
      rw [e]
      simp only [getItem, he, hs, hd, hk, Bool.false_eq_true, if_false,
        splitPath_append_slash _ _ hbns, hscan, hsube, hbcat, if_true]
      exact hrec

theorem mainHeap_parentIsHolder : ParentIsHolder mainHeap := by
  intro c cat its hc hk j hj
  obtain ⟨hlt, _⟩ := mainHeap_cases c cat hc
  interval_cases c <;>
    (simp only [mainHeap, List.getElem?_cons_zero, List.getElem?_cons_succ,
      Option.some.injEq] at hc
     subst hc
     cases hk <;> (revert j; simp [mainHeap]))

theorem mainHeap_wellNamed : WellNamed mainHeap := by
  intro c cat its hc hk j hj
  obtain ⟨hlt, _⟩ := mainHeap_cases c cat hc
  interval_cases c <;>
    (simp only [mainHeap, List.getElem?_cons_zero, List.getElem?_cons_succ,
      Option.some.injEq] at hc
     subst hc
     cases hk <;> (revert j; decide))

theorem mainHeap_uniqueNames : UniqueNames mainHeap := by
  intro c cat its hc hk
  obtain ⟨hlt, _⟩ := mainHeap_cases c cat hc
  interval_cases c <;>
    (simp only [mainHeap, List.getElem?_cons_zero, List.getElem?_cons_succ,
      Option.some.injEq] at hc
     subst hc
     cases hk <;> decide)

/-! ## Resolution after `addItem` -/

theorem rootCatalog_cycle :
    ∀ n, rootCatalog mainHeapRootAdded n 0 = none ∧ rootCatalog mainHeapRootAdded n 1 = none ∧
      rootCatalog mainHeapRootAdded n 2 = none := by
  intro n
  induction n with
  | zero => exact ⟨rfl, rfl, rfl⟩
  | succ k ih =>
    obtain ⟨h0, h1, h2⟩ := ih
    refine ⟨?_, ?_, ?_⟩
    · have e : rootCatalog mainHeapRootAdded (k + 1) 0 = rootCatalog mainHeapRootAdded k 2 := rfl
      rw [e, h2]
    · have e : rootCatalog mainHeapRootAdded (k + 1) 1 = rootCatalog mainHeapRootAdded k 0 := rfl
      rw [e, h0]
    · have e : rootCatalog mainHeapRootAdded (k + 1) 2 = rootCatalog mainHeapRootAdded k 1 := rfl
      rw [e, h1]

theorem rootCatalog_frame (h h2 : Heap) (P : Nat → Prop)
    (hpar : ∀ (j : Nat) (jt : FileSystemItem), P j → h[j]? = some jt →
      ∃ jt2 : FileSystemItem, h2[j]? = some jt2 ∧ jt2.parent = jt.parent)
    (hup : ∀ (j : Nat) (jt : FileSystemItem) (p : Nat), P j → h[j]? = some jt →
      jt.parent = some p → P p) :
    ∀ (k c r : Nat), P c → rootCatalog h k c = some r →
      rootCatalog h2 k c = some r ∧ P r := by
  intro k
  induction k with
  | zero => intro c r _ hr; simp [rootCatalog] at hr
  | succ m ih =>
    intro c r hc hr
    simp only [rootCatalog] at hr ⊢
    cases h1 : h[c]? with
    | none => simp [h1] at hr
    | some ct =>
      obtain ⟨ct2, hct2, hp2⟩ := hpar c ct hc h1
      simp only [h1] at hr
      simp only [hct2, hp2]
      cases hp : ct.parent with
      | none =>
        simp only [hp, Option.some.injEq] at hr
        subst hr
        exact ⟨rfl, hc⟩
      | some p =>
        simp only [hp] at hr
        exact ih p r (hup c ct p hc h1 hp) hr

theorem scanItems_frame (h h2 : Heap) (recur recur2 : Nat → Str → Option (Option Nat))
    (name subPath : Str) (n : Nat) (extra : List Nat)
    (hsame : ∀ (j : Nat) (jt : FileSystemItem), h[j]? = some jt →
      ∃ jt2 : FileSystemItem, h2[j]? = some jt2 ∧ jt2.path = jt.path ∧
        jt2.isCatalog = jt.isCatalog) :
    ∀ items : List Nat,
      (∀ (j : Nat) (jt : FileSystemItem), j ∈ items → h[j]? = some jt →
        jt.isCatalog = true → ∀ s, recur j s = some (some n) → recur2 j s = some (some n)) →
      scanItems h recur name subPath items = some (some n) →
      scanItems h2 recur2 name subPath (items ++ extra) = some (some n) := by
  intro items
  induction items with
  | nil => intro _ hs; simp [scanItems] at hs
  | cons i rest ih =>
    intro hrec hs
    simp only [scanItems, List.cons_append] at hs ⊢
    cases hi : h[i]? with
    | none => simp [hi] at hs
    | some it =>
      obtain ⟨it2, hi2, hp2, hc2⟩ := hsame i it hi
      simp only [hi] at hs
      simp only [hi2, hp2, hc2]
      by_cases hn : it.path = name
      · simp only [hn, if_true] at hs ⊢
        by_cases hsub : subPath.isEmpty = true
        · simpa [hsub] using hs
        · simp only [hsub, Bool.false_eq_true, if_false] at hs ⊢
          by_cases hcat : it.isCatalog = true
          · simp only [hcat, if_true] at hs ⊢
            exact hrec i it (by simp) hi hcat _ hs
          · simp [hcat] at hs
      · simp only [hn, if_false] at hs ⊢
        exact ih (fun j jt hj => hrec j jt (by simp [hj])) hs

/-- A successful resolution is the same in two heaps that agree on names and
classes, whose catalogs only gain items at the end, and whose climbs agree on
a set `Q` of nodes that contains the start and every catalog entered. -/
theorem getItem_frame (h h2 : Heap) (loopFuel loopFuel2 : Nat) (Q : Nat → Prop) (n : Nat)
    (hsame : ∀ (j : Nat) (jt : FileSystemItem), h[j]? = some jt →
      ∃ jt2 : FileSystemItem, h2[j]? = some jt2 ∧ jt2.path = jt.path ∧
        jt2.isCatalog = jt.isCatalog)
    (hitems : ∀ (c : Nat) (cself : FileSystemItem) (its : List Nat), h[c]? = some cself →
      cself.kind = .catalog its →
      ∃ (c2 : FileSystemItem) (extra : List Nat),
        h2[c]? = some c2 ∧ c2.kind = .catalog (its ++ extra))
    (hclimb : ∀ c r, Q c → rootCatalog h loopFuel c = some r →
      rootCatalog h2 loopFuel2 c = some r ∧ Q r)
    (hdown : ∀ (c : Nat) (cself : FileSystemItem) (its : List Nat) (j : Nat)
      (jt : FileSystemItem), Q c → h[c]? = some cself → cself.kind = .catalog its →
      j ∈ its → h[j]? = some jt → jt.isCatalog = true → Q j) :
    ∀ (fuel c : Nat) (p : Str), Q c → getItem h loopFuel fuel c p = some (some n) →
      getItem h2 loopFuel2 fuel c p = some (some n) := by
  intro fuel
  induction fuel with
  | zero => intro c p _ hg; simp [getItem] at hg
  | succ k ih =>
    intro c p hq hg
    simp only [getItem] at hg ⊢
    by_cases he : p.isEmpty = true
    · simp [he] at hg
    · simp only [he, Bool.false_eq_true, if_false] at hg ⊢
      by_cases hs : p.head? = some '/'
      · simp only [hs, if_true] at hg ⊢
        cases hr : rootCatalog h loopFuel c with
        | none => simp [hr] at hg
        | some r =>
          obtain ⟨hr2, hqr⟩ := hclimb c r hq hr
          simp only [hr] at hg
          simp only [hr2]
          exact ih r _ hqr hg
      · simp only [hs, if_false] at hg ⊢
        cases hc : h[c]? with
        | none => simp [hc] at hg
        | some cself =>
          simp only [hc] at hg
          cases hck : cself.kind with
          | item => simp [hck] at hg
          | file content => simp [hck] at hg
          | catalog its =>
            obtain ⟨c2, extra, hc2, hc2k⟩ := hitems c cself its hc hck
            simp only [hck] at hg
            simp only [hc2, hc2k]
            exact scanItems_frame h h2 _ _ _ _ n extra hsame its
              (fun j jt hj hjt hcat s hjs => ih j s (hdown c cself its j jt hq hc hck hj hjt hcat) hjs)
              hg

/-- What `addItem` leaves as it was: names and classes of all objects, the
items of every catalog as an initial segment, and the parent of every object
other than `x`; the parent of `x` becomes `d`. -/
theorem addItem_frame (h : Heap) (d x : Nat) (self it : FileSystemItem) (items : List Nat)
    (hd : h[d]? = some self) (hk : self.kind = .catalog items) (hx : h[x]? = some it) :
    ∃ h2, addItem h d x = some h2 ∧
      (∀ (j : Nat) (jt : FileSystemItem), h[j]? = some jt →
        ∃ jt2 : FileSystemItem, h2[j]? = some jt2 ∧ jt2.path = jt.path ∧
          jt2.isCatalog = jt.isCatalog ∧ (j ≠ x → jt2.parent = jt.parent) ∧
          (j = x → jt2.parent = some d)) ∧
      (∀ (c : Nat) (cself : FileSystemItem) (its : List Nat), h[c]? = some cself →
        cself.kind = .catalog its →
        ∃ (c2 : FileSystemItem) (extra : List Nat),
          h2[c]? = some c2 ∧ c2.kind = .catalog (its ++ extra)) := by
  obtain ⟨h2, hadd, _, hspec⟩ := addItem_spec h d x self it items hd hk hx
  refine ⟨h2, hadd, ?_, ?_⟩
  · intro j jt hj
    by_cases hjd : j = d
    · subst hjd
      have e : jt = self := by rw [hj] at hd; exact Option.some.inj hd
      subst e
      refine ⟨{ path := jt.path, parent := if x = j then some j else jt.parent,
                kind := .catalog (items ++ [x]) }, by rw [hspec j]; simp, rfl,
        by simp [FileSystemItem.isCatalog, hk], ?_, ?_⟩
      · intro hne
        have hne2 : ¬ x = j := fun e => hne e.symm
        simp [hne2]
      · intro e; simp [e]
    · by_cases hjx : j = x
      · subst hjx
        have e : jt = it := by rw [hj] at hx; exact Option.some.inj hx
        subst e
        exact ⟨{ jt with parent := some d }, by rw [hspec j]; simp [hjd], rfl, rfl,
          fun hne => absurd rfl hne, fun _ => rfl⟩
      · exact ⟨jt, by rw [hspec j]; simp [hjd, hjx, hj], rfl, rfl, fun _ => rfl,
          fun e => absurd e hjx⟩
  · intro c cself its hc hck
    by_cases hcd : c = d
    · subst hcd
      have e : cself = self := by rw [hc] at hd; exact Option.some.inj hd
      subst e
      have e2 : its = items := by rw [hck] at hk; exact Kind.catalog.inj hk
      subst e2
      exact ⟨{ path := cself.path, parent := if x = c then some c else cself.parent,
               kind := .catalog (its ++ [x]) }, [x], by rw [hspec c]; simp, rfl⟩
    · by_cases hcx : c = x
      · subst hcx
        have e : cself = it := by rw [hc] at hx; exact Option.some.inj hx
        subst e
        exact ⟨{ cself with parent := some d }, [], by rw [hspec c]; simp [hcd],
          by simp [hck]⟩
      · exact ⟨cself, [], by rw [hspec c]; simp [hcd, hcx, hc], by simp [hck]⟩

theorem isParentChain_frame (h h2 : Heap) :
    ∀ c : List Nat,
      (∀ (j : Nat) (jt : FileSystemItem), j ∈ c → h[j]? = some jt →
        ∃ jt2 : FileSystemItem, h2[j]? = some jt2 ∧ jt2.parent = jt.parent) →
      isParentChain h c = true → isParentChain h2 c = true := by
  intro c
  induction c with
  | nil => intro _ hc; simp [isParentChain] at hc
  | cons a rest ih =>
    intro hsame hc
    cases rest with
    | nil =>
      obtain ⟨it, hit, hp⟩ := (isParentChain_singleton h a).1 hc
      obtain ⟨it2, hit2, hp2⟩ := hsame a it (by simp) hit
      exact (isParentChain_singleton h2 a).2 ⟨it2, hit2, by rw [hp2, hp]⟩
    | cons b rest2 =>
      obtain ⟨⟨it, hit, hp⟩, hrest⟩ := (isParentChain_cons_cons h a b rest2).1 hc
      obtain ⟨it2, hit2, hp2⟩ := hsame a it (by simp) hit
      exact (isParentChain_cons_cons h2 a b rest2).2
        ⟨⟨it2, hit2, by rw [hp2, hp]⟩, ih (fun j jt hj => hsame j jt (by simp [hj])) hrest⟩

/-- The climb after `x` has got the parent `d`, when `x` and `d` had the same
root `r0` and `x` is not on the parent links of `d`: every climb ends in the
same root as before, within `up.length + 1` more steps. -/
theorem rootCatalog_reparent (h h2 : Heap) (d x r0 : Nat) (up upx : List Nat)
    (hpar : ∀ (j : Nat) (jt : FileSystemItem), h[j]? = some jt →
      ∃ jt2 : FileSystemItem, h2[j]? = some jt2 ∧ (j ≠ x → jt2.parent = jt.parent) ∧
        (j = x → jt2.parent = some d))
    (hd : isParentChain h (d :: up) = true) (hdx : x ∉ d :: up)
    (hdr : (d :: up).getLast? = some r0)
    (hxc : isParentChain h (x :: upx) = true) (hxr : (x :: upx).getLast? = some r0) :
    ∀ (k c r : Nat), rootCatalog h k c = some r →
      rootCatalog h2 (k + up.length + 1) c = some r := by
  have hd2 : isParentChain h2 (d :: up) = true := by
    apply isParentChain_frame h h2 (d :: up) _ hd
    intro j jt hj hjt
    obtain ⟨jt2, hjt2, hne, _⟩ := hpar j jt hjt
    exact ⟨jt2, hjt2, hne (fun e => hdx (e ▸ hj))⟩
  intro k
  induction k with
  | zero => intro c r hr; simp [rootCatalog] at hr
  | succ m ih =>
    intro c r hr
    cases h1 : h[c]? with
    | none => simp [rootCatalog, h1] at hr
    | some ct =>
      obtain ⟨ct2, hct2, hne, heq⟩ := hpar c ct h1
      by_cases hcx : c = x
      · subst hcx
        have e := rootCatalog_eq_of_chain h c r0 r upx (m + 1) hxc hxr hr
        subst e
        have hroot := rootCatalog_of_chain h2 up d (m + up.length + 1) hd2 (by omega)
        rw [hdr] at hroot
        have e2 : m + 1 + up.length + 1 = (m + up.length + 1) + 1 := by omega
        rw [e2]
        simp only [rootCatalog, hct2, heq rfl]
        exact hroot
      · have e2 : m + 1 + up.length + 1 = (m + up.length + 1) + 1 := by omega
        rw [e2]
        simp only [rootCatalog, h1] at hr
        simp only [rootCatalog, hct2, hne hcx]
        cases hp : ct.parent with
        | none => simpa [hp] using hr
        | some p =>
          simp only [hp] at hr ⊢
          exact ih p r hr

theorem wellTyped_append (h : Heap) (nd : FileSystemItem) (hwt : WellTyped h)
    (hp : nd.parent = none) (hk : ∀ its, nd.kind ≠ .catalog its) :
    WellTyped (h ++ [nd]) := by
  have hlift : ∀ (j : Nat) (jt : FileSystemItem), h[j]? = some jt →
      (h ++ [nd])[j]? = some jt := by
    intro j jt hj
    have hjl : j < h.length := by
      rcases Nat.lt_or_ge j h.length with hlt | hge
      · exact hlt
      · rw [List.getElem?_eq_none hge] at hj; cases hj
    rw [List.getElem?_append_left hjl]; exact hj
  intro i it hi
  rcases Nat.lt_trichotomy i h.length with hlt | heq | hgt
  · rw [List.getElem?_append_left hlt] at hi
    obtain ⟨h1, h2⟩ := hwt i it hi
    refine ⟨?_, ?_⟩
    · intro p hpp
      obtain ⟨par, its, hpar, hpk⟩ := h1 p hpp
      exact ⟨par, its, hlift p par hpar, hpk⟩
    · intro its hik j hj
      obtain ⟨c, hc⟩ := h2 its hik j hj
      exact ⟨c, hlift j c hc⟩
  · subst heq
    simp only [List.getElem?_concat_length, Option.some.injEq] at hi
    subst hi
    exact ⟨fun p hpp => (by rw [hp] at hpp; cases hpp), fun its hik => absurd hik (hk its)⟩
  · rw [List.getElem?_eq_none (by simp; omega)] at hi
    cases hi

/-- A re-parenting that does change a successful resolution without a cycle:
in `sharedHeap` the path `a/x//b` from the root `0` climbs from `x` to the
second root and returns the file `b`; after `addItem` of `x` to the root `0`
the climb from `x` ends in the root `0`, which holds no `b`, and the result
is `nullptr`. -/
theorem getItem_after_addItem_other_root :
    (∀ loopFuel fuel,
      getItem sharedHeap (loopFuel + 2) (fuel + 4) 0 "a/x//b".toList = some (some 4)) ∧
    ∃ h2, addItem sharedHeap 0 2 = some h2 ∧
      ∀ loopFuel fuel, getItem h2 (loopFuel + 2) (fuel + 4) 0 "a/x//b".toList = some none := by
  refine ⟨?_, _, rfl, ?_⟩
  · intro loopFuel fuel
    exact getItem_mono sharedHeap 2 (loopFuel + 2) (by omega) 4 (fuel + 4) 0 _ _ (by decide)
      (by omega)
  · intro loopFuel fuel
    exact getItem_mono _ 2 (loopFuel + 2) (by omega) 4 (fuel + 4) 0 _ _ (by decide)
      (by omega)

theorem parent_ne_of_wellTyped (h : Heap) (x : Nat) (it : FileSystemItem)
    (hwt : WellTyped h) (hx : h[x]? = some it) (hnc : it.isCatalog = false) :
    ∀ (j : Nat) (jt : FileSystemItem), h[j]? = some jt → jt.parent ≠ some x := by
  intro j jt hj hp
  obtain ⟨par, its, hpar, hpk⟩ := (hwt j jt hj).1 x hp
  rw [hx] at hpar
  have e := Option.some.inj hpar
  subst e
  simp [FileSystemItem.isCatalog, hpk] at hnc

/-! ## Claims -/

/-- C1: absolute-path equivalence.  Let `r` be the root reached from the
catalog `d` along the parent links `d :: c`.  For a path `p` whose first
character is `'/'`, `d.getItem(p)` is `r.getItem(p.substr(1))`, and two
catalogs `d1`, `d2` with the same root give the same result for `p`. -/
theorem getItem_absolute_path (h : Heap) (p : Str) (hp : p.head? = some '/') :
    (∀ (d r : Nat) (c : List Nat) (loopFuel fuel : Nat),
        isParentChain h (d :: c) = true → (d :: c).getLast? = some r →
        c.length < loopFuel →
        getItem h loopFuel (fuel + 1) d p = getItem h loopFuel fuel r (p.drop 1)) ∧
    (∀ (d1 d2 r : Nat) (c1 c2 : List Nat) (loopFuel fuel : Nat),
        isParentChain h (d1 :: c1) = true → (d1 :: c1).getLast? = some r →
        isParentChain h (d2 :: c2) = true → (d2 :: c2).getLast? = some r →
        c1.length < loopFuel → c2.length < loopFuel →
        getItem h loopFuel fuel d1 p = getItem h loopFuel fuel d2 p) := by
  have hne : p.isEmpty = false := by
    cases p with
    | nil => simp at hp
    | cons a t => rfl
  have key : ∀ (d r : Nat) (c : List Nat) (loopFuel fuel : Nat),
      isParentChain h (d :: c) = true → (d :: c).getLast? = some r →
      c.length < loopFuel →
      getItem h loopFuel (fuel + 1) d p = getItem h loopFuel fuel r (p.drop 1) := by
    intro d r c loopFuel fuel hc hr hl
    have hroot := rootCatalog_of_chain h c d loopFuel hc hl
    rw [hr] at hroot
    simp [getItem, hne, hp, hroot]
  refine ⟨key, ?_⟩
  intro d1 d2 r c1 c2 loopFuel fuel hc1 hr1 hc2 hr2 hl1 hl2
  cases fuel with
  | zero => simp [getItem]
  | succ n => rw [key d1 r c1 loopFuel n hc1 hr1 hl1, key d2 r c2 loopFuel n hc2 hr2 hl2]

/-- Witness of C1 on the tree of `main`: from `user` and from `home` the
path `/home/user/text1.txt` is resolved as `home/user/text1.txt` from the
root. -/
theorem getItem_absolute_path_witness :
    getItem mainHeap 3 (4 + 1) 2 "/home/user/text1.txt".toList
        = getItem mainHeap 3 4 0 ("/home/user/text1.txt".toList.drop 1) ∧
    getItem mainHeap 3 5 2 "/home/user/text1.txt".toList
        = getItem mainHeap 3 5 1 "/home/user/text1.txt".toList :=
  ⟨(getItem_absolute_path mainHeap "/home/user/text1.txt".toList (by decide)).1
      2 0 [1, 0] 3 4 (by decide) (by decide) (by decide),
   (getItem_absolute_path mainHeap "/home/user/text1.txt".toList (by decide)).2
      2 1 0 [1, 0] [0] 3 5 (by decide) (by decide) (by decide) (by decide)
      (by decide) (by decide)⟩

/-- C2: `getFullPath` equals the reference definition.  Let
`n :: c = [n, ..., a1, r]` be the parent links from `n` up to the parentless
root `r`, the root with the empty name and every other node of the chain
with a non-empty name.  Then `n.getFullPath()` returns `"/"` followed by the
names of `a1, ..., n` joined with `"/"`.  On the tree of `main` the root
gives `/`, `home` gives `/home` and `user` gives `/home/user`. -/
theorem getFullPath_eq_reference :
    (∀ (h : Heap) (n : Nat) (c : List Nat) (fuel : Nat),
        isParentChain h (n :: c) = true →
        (∀ r, (n :: c).getLast? = some r → nameOf h r = []) →
        (∀ a ∈ (n :: c).dropLast, nameOf h a ≠ []) →
        c.length < fuel →
        getFullPath h fuel n = some (referenceFullPath (chainNames h (n :: c)))) ∧
    (∀ fuel, getFullPath mainHeap (fuel + 1) 0 = some "/".toList) ∧
    (∀ fuel, getFullPath mainHeap (fuel + 1) 1 = some "/home".toList) ∧
    (∀ fuel, getFullPath mainHeap (fuel + 1) 2 = some "/home/user".toList) := by
  refine ⟨?_, ?_, ?_, ?_⟩
  · intro h n c fuel hc hroot hne hl
    exact getFullPath_of_chain h c n fuel hc hroot hne hl
  · intro fuel; rfl
  · intro fuel; rfl
  · intro fuel; rfl

/-- Witness of C2: the file `text2.txt` of the tree of `main`, three levels
below the root. -/
theorem getFullPath_eq_reference_witness :
    getFullPath mainHeap 4 4 = some "/home/user/text2.txt".toList :=
  getFullPath_eq_reference.1 mainHeap 4 [2, 1, 0] 4 (by decide) (by decide) (by decide)
    (by decide)

/-- C3: under the data-model invariants along the parent links of `n` (the
root has the empty name and no parent, every other node a non-empty name
without `'/'`), `n.getFullPath()` returns a text that starts with `'/'` and
has no occurrence of `"//"`. -/
theorem getFullPath_no_double_slash (h : Heap) (n : Nat) (c : List Nat) (fuel : Nat)
    (hc : isParentChain h (n :: c) = true)
    (hroot : ∀ r, (n :: c).getLast? = some r → nameOf h r = [])
    (hne : ∀ a ∈ (n :: c).dropLast, nameOf h a ≠ [] ∧ '/' ∉ nameOf h a)
    (hl : c.length < fuel) :
    ∃ s, getFullPath h fuel n = some s ∧ s.head? = some '/' ∧ ¬ ("//".toList <:+: s) := by
  refine ⟨_, getFullPath_of_chain h c n fuel hc hroot (fun a ha => (hne a ha).1) hl, rfl, ?_⟩
  intro hin
  have hd := hasDoubleSlash_of_infix _ hin
  rw [hasDoubleSlash_intercalate] at hd
  · exact absurd hd (by decide)
  · intro x hx
    simp only [chainNames, List.mem_map, List.mem_reverse] at hx
    obtain ⟨a, ha, rfl⟩ := hx
    exact hne a ha

/-- Witness of C3: the file `text3.txt` of the tree of `main`. -/
theorem getFullPath_no_double_slash_witness :
    ∃ s, getFullPath mainHeap 4 5 = some s ∧ s.head? = some '/' ∧ ¬ ("//".toList <:+: s) :=
  getFullPath_no_double_slash mainHeap 5 [2, 1, 0] 4 (by decide) (by decide) (by decide)
    (by decide)

/-- C4: the scenario of `main`.  The set-up of `main` succeeds and builds
root -> home -> user -> text1.txt, text2.txt, text3.txt with
`currentDirectory = user`.  There `user.getItem("text2.txt")` is the `File`
with content "Содержимое файла text2.txt", `user.getItem("/home/user/text1.txt")`
is the node that `user.getItem("text1.txt")` returns, and
`user.getItem("nope.txt")` is `nullptr`. -/
theorem main_scenario :
    ∃ s : Session, mainSetup = some s ∧ s.heap = mainHeap ∧ s.currentDirectory = s.user ∧
      (∀ loopFuel fuel,
        getItem s.heap loopFuel (fuel + 1) s.user "text2.txt".toList = some (some s.file2)) ∧
      s.heap[s.file2]? = some
        { path := "text2.txt".toList, parent := some s.user,
          kind := .file "Содержимое файла text2.txt".toList } ∧
      (∀ loopFuel fuel,
        getItem s.heap (loopFuel + 3) (fuel + 4) s.user "/home/user/text1.txt".toList
          = some (some s.file1)) ∧
      (∀ loopFuel fuel,
        getItem s.heap loopFuel (fuel + 1) s.user "text1.txt".toList = some (some s.file1)) ∧
      (∀ loopFuel fuel,
        getItem s.heap loopFuel (fuel + 1) s.user "nope.txt".toList = some none) := by
  refine ⟨⟨mainHeap, 0, 1, 2, 3, 4, 5, 2⟩, rfl, rfl, rfl, ?_, rfl, ?_, ?_, ?_⟩
  · intro loopFuel fuel
    exact getItem_mono mainHeap 0 loopFuel (Nat.zero_le _) 1 (fuel + 1) 2 _ _ (by decide)
      (by omega)
  · intro loopFuel fuel
    exact getItem_mono mainHeap 3 (loopFuel + 3) (by omega) 4 (fuel + 4) 2 _ _ (by decide)
      (by omega)
  · intro loopFuel fuel
    exact getItem_mono mainHeap 0 loopFuel (Nat.zero_le _) 1 (fuel + 1) 2 _ _ (by decide)
      (by omega)
  · intro loopFuel fuel
    exact getItem_mono mainHeap 0 loopFuel (Nat.zero_le _) 1 (fuel + 1) 2 _ _ (by decide)
      (by omega)

/-- C5: `getItem("")` returns `nullptr` on every catalog `d`, whatever the
heap holds at `d`. -/
theorem getItem_empty (h : Heap) (loopFuel fuel d : Nat) :
    getItem h loopFuel (fuel + 1) d [] = some none := by
  simp [getItem]

/-- C6: NotFound.  Let `d` be a catalog whose item pointers are all valid and
`p` a non-empty path that does not start with `'/'`.  If no item of `d` has a
`path` equal to the first segment of `p`, then `d.getItem(p)` is `nullptr`.
The segments `.` and `..` are looked up like any other name: `d.getItem(".")`
and `d.getItem("..")` are `nullptr` when no item of `d` is named so, whatever
the parent of `d` is. -/
theorem getItem_not_found (h : Heap) (d : Nat) (self : FileSystemItem) (items : List Nat)
    (loopFuel fuel : Nat) (hd : h[d]? = some self) (hk : self.kind = .catalog items) :
    (∀ p : Str, p ≠ [] → p.head? ≠ some '/' →
        (∀ i ∈ items, ∃ it, h[i]? = some it ∧ it.path ≠ firstSegment p) →
        getItem h loopFuel (fuel + 1) d p = some none) ∧
    ((∀ i ∈ items, ∃ it, h[i]? = some it ∧ it.path ≠ ".".toList) →
        getItem h loopFuel (fuel + 1) d ".".toList = some none) ∧
    ((∀ i ∈ items, ∃ it, h[i]? = some it ∧ it.path ≠ "..".toList) →
        getItem h loopFuel (fuel + 1) d "..".toList = some none) := by
  have key : ∀ p : Str, p ≠ [] → p.head? ≠ some '/' →
      (∀ i ∈ items, ∃ it, h[i]? = some it ∧ it.path ≠ firstSegment p) →
      getItem h loopFuel (fuel + 1) d p = some none := by
    intro p hp hs hno
    have he : p.isEmpty = false := by
      cases p with
      | nil => exact absurd rfl hp
      | cons a t => rfl
    simp only [getItem, he, hs, hd, hk, Bool.false_eq_true, if_false]
    exact scanItems_not_found h _ _ _ items (by rw [splitPath_fst]; exact hno)
  refine ⟨key, ?_, ?_⟩
  · intro hno
    exact key ".".toList (by decide) (by decide) hno
  · intro hno
    exact key "..".toList (by decide) (by decide) hno

/-- Witness of C6: in the tree of `main`, `user` has the parent `home`, and
`user.getItem("..")` is `nullptr`. -/
theorem getItem_not_found_witness :
    getItem mainHeap 0 1 2 "..".toList = some none :=
  (getItem_not_found mainHeap 2 _ [3, 4, 5] 0 0 rfl rfl).2.2 (by decide)

/-- C7: NotADirectory.  Let `d` be a catalog whose first item named `name`
(`name` non-empty and without `'/'`) is the `File` `f`.  For every non-empty
`t`, `d.getItem(name + "/" + t)` is `nullptr`. -/
theorem getItem_through_file (h : Heap) (d f : Nat) (self fit : FileSystemItem)
    (pre post : List Nat) (name content t : Str) (loopFuel fuel : Nat)
    (hd : h[d]? = some self) (hk : self.kind = .catalog (pre ++ f :: post))
    (hpre : ∀ i ∈ pre, ∃ it, h[i]? = some it ∧ it.path ≠ name)
    (hf : h[f]? = some fit) (hname : fit.path = name) (hfile : fit.kind = .file content)
    (hne : name ≠ []) (hns : '/' ∉ name) (ht : t ≠ []) :
    getItem h loopFuel (fuel + 1) d (name ++ "/".toList ++ t) = some none := by
  have e : name ++ "/".toList ++ t = name ++ '/' :: t := by simp
  have he : (name ++ '/' :: t).isEmpty = false := by
    cases name with
    | nil => exact absurd rfl hne
    | cons a r => rfl
  have hte : t.isEmpty = false := by
    cases t with
    | nil => exact absurd rfl ht
    | cons a r => rfl
  have hs := head_ne_slash name ('/' :: t) hns hne
  rw [e]
  simp only [getItem, he, hs, hd, hk, Bool.false_eq_true, if_false,
    splitPath_append_slash name t hns]
  rw [scanItems_skip h _ name t pre (f :: post) hpre]
  simp [scanItems, hf, hname, hte, FileSystemItem.isCatalog, hfile]

/-- Witness of C7: in the tree of `main`, `user.getItem("text2.txt/x")` is
`nullptr`. -/
theorem getItem_through_file_witness :
    getItem mainHeap 0 1 2 ("text2.txt".toList ++ "/".toList ++ "x".toList) = some none :=
  getItem_through_file mainHeap 2 4 _ _ [3] [5] "text2.txt".toList
    "Содержимое файла text2.txt".toList "x".toList 0 0 rfl rfl (by decide) rfl rfl rfl
    (by decide) (by decide) (by decide)

/-- C8: `addItem` postcondition and frame.  For every catalog `d` with items
`items` and every allocated node `x`, `d.addItem(x)` succeeds, with no
condition on the names of the items already there.  Afterwards the items of
`d` are `items` followed by `x`, the parent of `x` is `d`, the `path` of `x`
is unchanged, and every object other than `d` and `x` is unchanged; when
`x` is not `d` itself, `d` keeps its `path` and parent and `x` its class. -/
theorem addItem_postcondition (h : Heap) (d x : Nat) (self it : FileSystemItem)
    (items : List Nat) (hd : h[d]? = some self) (hk : self.kind = .catalog items)
    (hx : h[x]? = some it) :
    ∃ h2, addItem h d x = some h2 ∧ h2.length = h.length ∧
      (∃ self2, h2[d]? = some self2 ∧ self2.kind = .catalog (items ++ [x]) ∧
        self2.path = self.path ∧ (x ≠ d → self2.parent = self.parent)) ∧
      (∃ it2, h2[x]? = some it2 ∧ it2.parent = some d ∧ it2.path = it.path ∧
        (x ≠ d → it2.kind = it.kind)) ∧
      (∀ j, j ≠ d → j ≠ x → h2[j]? = h[j]?) := by
  obtain ⟨h2, hadd, hlen, hspec⟩ := addItem_spec h d x self it items hd hk hx
  refine ⟨h2, hadd, hlen,
    ⟨{ path := self.path, parent := if x = d then some d else self.parent,
       kind := .catalog (items ++ [x]) }, by rw [hspec d]; simp, rfl, rfl, ?_⟩, ?_, ?_⟩
  · intro hne; simp [hne]
  · by_cases hxd : x = d
    · subst hxd
      have e : it = self := by rw [hx] at hd; exact Option.some.inj hd
      subst e
      exact ⟨{ path := it.path, parent := if x = x then some x else it.parent,
               kind := .catalog (items ++ [x]) },
        by rw [hspec x]; simp, by simp, rfl, fun hne => absurd rfl hne⟩
    · exact ⟨{ it with parent := some d }, by rw [hspec x]; simp [hxd], rfl, rfl,
        fun _ => rfl⟩
  · intro j hjd hjx
    rw [hspec j]; simp [hjd, hjx]

/-- Witness of C8: the catalog of `duplicateHeap` already holds a file named
`a` and receives a second file named `a`. -/
theorem addItem_postcondition_witness :
    ∃ h2, addItem duplicateHeap 0 2 = some h2 ∧ h2.length = duplicateHeap.length ∧
      (∃ self2, h2[0]? = some self2 ∧ self2.kind = .catalog ([1] ++ [2]) ∧
        self2.path = [] ∧ (2 ≠ 0 → self2.parent = none)) ∧
      (∃ it2, h2[2]? = some it2 ∧ it2.parent = some 0 ∧ it2.path = ['a'] ∧
        (2 ≠ 0 → it2.kind = .file ['y'])) ∧
      (∀ j, j ≠ 0 → j ≠ 2 → h2[j]? = duplicateHeap[j]?) :=
  addItem_postcondition duplicateHeap 0 2
    { path := [], parent := none, kind := .catalog [1] }
    { path := ['a'], parent := none, kind := .file ['y'] } [1] rfl rfl rfl

/-- C9: `cat(path)` is decided by `currentDirectory.getItem(path)`: two calls
whose `getItem` results agree return the same text; the text is the content
when the result is a `File`, "Cannot display content of a directory." when it
is a `Catalog`, and "File not found." when it is `nullptr`; and when every
object of the heap is a `Catalog` or a `File`, `cat` never leaves through the
"Error reading file." branch. -/
theorem cat_by_getItem (h : Heap) (loopFuel fuel : Nat) (currentDirectory : Nat)
    (filename : Str) :
    (∀ (loopFuel2 fuel2 cur2 : Nat) (filename2 : Str),
        getItem h loopFuel fuel currentDirectory filename
          = getItem h loopFuel2 fuel2 cur2 filename2 →
        cat h loopFuel fuel currentDirectory filename = cat h loopFuel2 fuel2 cur2 filename2) ∧
    (∀ item it content,
        getItem h loopFuel fuel currentDirectory filename = some (some item) →
        h[item]? = some it → it.kind = .file content →
        cat h loopFuel fuel currentDirectory filename = some content) ∧
    (∀ item it items,
        getItem h loopFuel fuel currentDirectory filename = some (some item) →
        h[item]? = some it → it.kind = .catalog items →
        cat h loopFuel fuel currentDirectory filename
          = some "Cannot display content of a directory.".toList) ∧
    (getItem h loopFuel fuel currentDirectory filename = some none →
        cat h loopFuel fuel currentDirectory filename = some "File not found.".toList) ∧
    ((∀ it ∈ h, it.kind ≠ .item) →
        catReturn h loopFuel fuel currentDirectory filename ≠ some .errorReading) := by
  refine ⟨?_, ?_, ?_, ?_, ?_⟩
  · intro loopFuel2 fuel2 cur2 filename2 hg
    simp only [cat, catReturn, hg]
  · intro item it content hg hit hkind
    simp [cat, catReturn, hg, hit, FileSystemItem.isCatalog, asFile, hkind, CatReturn.text]
  · intro item it items hg hit hkind
    simp [cat, catReturn, hg, hit, FileSystemItem.isCatalog, hkind, CatReturn.text]
  · intro hg
    simp [cat, catReturn, hg, CatReturn.text]
  · intro hall
    cases hg : getItem h loopFuel fuel currentDirectory filename with
    | none => simp [catReturn, hg]
    | some r =>
      cases r with
      | none => simp [catReturn, hg]
      | some item =>
        cases hit : h[item]? with
        | none => simp [catReturn, hg, hit]
        | some it =>
          have hmem : it ∈ h := List.getElem?_mem hit
          have hne := hall it hmem
          cases hkind : it.kind with
          | item => exact absurd hkind hne
          | catalog items => simp [catReturn, hg, hit, FileSystemItem.isCatalog, hkind]
          | file content =>
            simp [catReturn, hg, hit, FileSystemItem.isCatalog, asFile, hkind]

/-- Witness of C9 on the tree of `main`: `cat text2.txt` returns the content
of the file, and as the tree has only catalogs and files the error branch is
not taken. -/
theorem cat_by_getItem_witness :
    cat mainHeap 0 1 2 "text2.txt".toList = some "Содержимое файла text2.txt".toList ∧
    catReturn mainHeap 0 1 2 "text2.txt".toList ≠ some .errorReading :=
  ⟨(cat_by_getItem mainHeap 0 1 2 "text2.txt".toList).2.1 4 _ _ (by decide) rfl rfl,
   (cat_by_getItem mainHeap 0 1 2 "text2.txt".toList).2.2.2.2 (by decide)⟩

/-- C10: `ls()` returns the `path` of every item of `currentDirectory`
followed by one newline, in the order of `items` and nothing else; `addItem`
appends to that order, so the listing after `d.addItem(x)` is the listing
before followed by the line of `x`; and for the tree of `main`, with
`currentDirectory = user`, the listing is
`"text1.txt\ntext2.txt\ntext3.txt\n"`. -/
theorem ls_listing :
    (∀ (h : Heap) (cur : Nat) (self : FileSystemItem) (items : List Nat),
        h[cur]? = some self → self.kind = .catalog items →
        (∀ i ∈ items, ∃ it, h[i]? = some it) →
        ls h cur = some (referenceListing (items.map (nameOf h)))) ∧
    (∀ (h : Heap) (d x : Nat) (self it : FileSystemItem) (items : List Nat),
        h[d]? = some self → self.kind = .catalog items →
        (∀ i ∈ items, ∃ it, h[i]? = some it) → h[x]? = some it →
        ∃ h2 s, addItem h d x = some h2 ∧ ls h d = some s ∧
          ls h2 d = some (s ++ it.path ++ "\n".toList)) ∧
    (∃ s : Session, mainSetup = some s ∧ s.currentDirectory = s.user ∧
        ls s.heap s.currentDirectory = some "text1.txt\ntext2.txt\ntext3.txt\n".toList) := by
  refine ⟨?_, ?_, ?_⟩
  · intro h cur self items hc hk hv
    exact ls_eq h cur self items hc hk hv
  · intro h d x self it items hd hk hv hx
    obtain ⟨h2, hadd, _, hspec⟩ := addItem_spec h d x self it items hd hk hx
    refine ⟨h2, _, hadd, ls_eq h d self items hd hk hv, ?_⟩
    have hvalid : ∀ j : Nat, (∃ a : FileSystemItem, h[j]? = some a) →
        ∃ a : FileSystemItem, h2[j]? = some a := by
      intro j hj
      rw [hspec j]
      by_cases hjd : j = d
      · simp [hjd]
      · by_cases hjx : j = x
        · subst hjx
          simp [hjd]
        · simpa [hjd, hjx] using hj
    have hd2 := hspec d
    simp only [if_true] at hd2
    rw [ls_eq h2 d _ (items ++ [x]) hd2 rfl
      (by
        intro i hi
        rcases List.mem_append.1 hi with hi | hi
        · exact hvalid i (hv i hi)
        · simp only [List.mem_singleton] at hi
          subst hi
          exact hvalid i ⟨it, hx⟩)]
    have hn : nameOf h2 = nameOf h :=
      funext (nameOf_after_addItem h h2 d x self it items hd hx hspec)
    have hnx : nameOf h x = it.path := by simp [nameOf, hx]
    simp [referenceListing, hn, hnx]
  · exact ⟨⟨mainHeap, 0, 1, 2, 3, 4, 5, 2⟩, rfl, rfl, by decide⟩

/-- Witness of C10: the listing of `user` in the tree of `main`. -/
theorem ls_listing_witness :
    ls mainHeap 2 = some (referenceListing ([3, 4, 5].map (nameOf mainHeap))) :=
  ls_listing.1 mainHeap 2 _ [3, 4, 5] rfl rfl
    (by
      intro i hi
      simp only [List.mem_cons, List.mem_singleton, List.not_mem_nil, or_false] at hi
      rcases hi with rfl | rfl | rfl <;> exact ⟨_, rfl⟩)

/-- C11, as stated, fails: in `duplicateHeap` the root holds the file `1`
named `a`; after `addItem` of the file `2`, also named `a`, the root holds
both, `2` is the one added last, and `getItem("a")` returns `1` at every
fuel and never `2`. -/
theorem getItem_duplicate_last_counterexample :
    addItem duplicateHeap 0 2 = some duplicateAdded ∧
    nameOf duplicateAdded 1 = ['a'] ∧ nameOf duplicateAdded 2 = ['a'] ∧
    (∀ loopFuel fuel, getItem duplicateAdded loopFuel (fuel + 1) 0 ['a'] = some (some 1)) ∧
    ¬ ∃ loopFuel fuel, getItem duplicateAdded loopFuel fuel 0 ['a'] = some (some 2) := by
  have h1 : ∀ loopFuel fuel,
      getItem duplicateAdded loopFuel (fuel + 1) 0 ['a'] = some (some 1) := by
    intro loopFuel fuel
    exact getItem_mono duplicateAdded 0 loopFuel (Nat.zero_le _) 1 (fuel + 1) 0 _ _
      (by decide) (by omega)
  refine ⟨by decide, by decide, by decide, h1, ?_⟩
  rintro ⟨loopFuel, fuel, hg⟩
  cases fuel with
  | zero => simp [getItem] at hg
  | succ k =>
    rw [h1 loopFuel k] at hg
    simp at hg

/-- C11, amended: the first match wins.  When the items of the catalog `d`
are `pre ++ f :: post`, no item of `pre` is named `name` and `f` is, then
`d.getItem(name)` returns `f` (`name` non-empty and without `'/'`), whatever
the later items `post` are named. -/
theorem getItem_first_match (h : Heap) (d f : Nat) (self fit : FileSystemItem)
    (pre post : List Nat) (name : Str) (loopFuel fuel : Nat)
    (hd : h[d]? = some self) (hk : self.kind = .catalog (pre ++ f :: post))
    (hpre : ∀ i ∈ pre, ∃ it, h[i]? = some it ∧ it.path ≠ name)
    (hf : h[f]? = some fit) (hname : fit.path = name)
    (hne : name ≠ []) (hns : '/' ∉ name) :
    getItem h loopFuel (fuel + 1) d name = some (some f) := by
  have he : name.isEmpty = false := by
    cases name with
    | nil => exact absurd rfl hne
    | cons a r => rfl
  have hs := head_ne_slash name [] hns hne
  rw [List.append_nil] at hs
  simp only [getItem, he, hs, hd, hk, Bool.false_eq_true, if_false, splitPath_no_slash name hns]
  rw [scanItems_skip h _ name [] pre (f :: post) hpre]
  simp [scanItems, hf, hname]

/-- Witness of the amended C11: with two files named `a` in the root, the
one added first is returned. -/
theorem getItem_first_match_witness :
    getItem duplicateAdded 0 1 0 ['a'] = some (some 1) :=
  getItem_first_match duplicateAdded 0 1 _ _ [] [2] ['a'] 0 0 rfl rfl (by simp) rfl rfl
    (by decide) (by decide)

/-- C12, as stated, fails at the second statement of `main`: the heap that
holds only the root satisfies the invariant, and after the constructor
`Catalog("home", root)` the new node has the parent `root` but does not
occur among the items of `root`. -/
theorem invariant_constructor_counterexample :
    parentChildInvariant (newCatalog [] "".toList none).1 0 ∧
    ¬ parentChildInvariant
        (newCatalog (newCatalog [] "".toList none).1 "home".toList (some 0)).1 0 := by
  refine ⟨by decide, by decide⟩

/-- C12, amended: a constructor followed by `addItem` keeps the invariant.
Let the heap satisfy the invariant and let `d` be a catalog whose items are
all allocated.  Constructing a `Catalog`, a `File` or a `FileSystemItem` with
the parent `d` and then calling `d.addItem` on it succeeds and gives a heap
that satisfies the invariant again; and the set-up of `main`, which proceeds
in this way, ends in a heap that satisfies it. -/
theorem invariant_construct_then_addItem (h : Heap) (root d : Nat) (self : FileSystemItem)
    (items : List Nat) (hinv : parentChildInvariant h root)
    (hd : h[d]? = some self) (hk : self.kind = .catalog items)
    (hitems : ∀ j ∈ items, j < h.length) :
    (∀ path, ∃ h2,
        addItem (newCatalog h path (some d)).1 d (newCatalog h path (some d)).2 = some h2 ∧
        parentChildInvariant h2 root) ∧
    (∀ path content, ∃ h2,
        addItem (newFile h path content (some d)).1 d (newFile h path content (some d)).2
          = some h2 ∧
        parentChildInvariant h2 root) ∧
    (∀ path, ∃ h2,
        addItem (newFileSystemItem h path (some d)).1 d
          (newFileSystemItem h path (some d)).2 = some h2 ∧
        parentChildInvariant h2 root) ∧
    (∃ s : Session, mainSetup = some s ∧ parentChildInvariant s.heap s.root) := by
  refine ⟨?_, ?_, ?_, ?_⟩
  · intro path
    exact invariant_append_then_addItem h root d self _ items hinv hd hk hitems rfl
  · intro path content
    exact invariant_append_then_addItem h root d self _ items hinv hd hk hitems rfl
  · intro path
    exact invariant_append_then_addItem h root d self _ items hinv hd hk hitems rfl
  · exact ⟨⟨mainHeap, 0, 1, 2, 3, 4, 5, 2⟩, rfl, by decide⟩

/-- Witness of the amended C12: a fourth file is constructed with the parent
`user` and added to `user` in the tree of `main`. -/
theorem invariant_construct_then_addItem_witness :
    ∃ h2,
      addItem (newFile mainHeap "text4.txt".toList [] (some 2)).1 2
        (newFile mainHeap "text4.txt".toList [] (some 2)).2 = some h2 ∧
      parentChildInvariant h2 0 :=
  (invariant_construct_then_addItem mainHeap 0 2 _ [3, 4, 5] (by decide) rfl rfl
    (by decide)).2.1 "text4.txt".toList []

/-- C13: `getItem` terminates.  Let the heap be well typed with acyclic
parent links (`depth` decreases towards the parent and `loopFuel` exceeds
every depth), and let `d` be a catalog.  Then for every path `p` the call
`d.getItem(p)` returns within `p.length` recursive calls: with recursion
fuel `p.length + 1` (the first call and at most `p.length` recursive ones) it
gives a result, and every larger fuel gives the same result.  Each recursive
call has a strictly shorter path: `p.substr(1)` after a leading `'/'`, and
the `subPath` of the split otherwise. -/
theorem getItem_terminates (h : Heap) (depth : Nat → Nat) (loopFuel : Nat) (d : Nat)
    (self : FileSystemItem) (items : List Nat) (p : Str)
    (hwt : WellTyped h) (hac : Acyclic h depth)
    (hlf : ∀ i, i < h.length → depth i < loopFuel)
    (hd : h[d]? = some self) (hk : self.kind = .catalog items) :
    (∃ r, getItem h loopFuel (p.length + 1) d p = some r ∧
      ∀ loopFuel2 fuel2, loopFuel ≤ loopFuel2 → p.length + 1 ≤ fuel2 →
        getItem h loopFuel2 fuel2 d p = some r) ∧
    (p ≠ [] → (p.drop 1).length < p.length ∧ (splitPath p).2.length < p.length) := by
  obtain ⟨r, hr⟩ := getItem_total h depth loopFuel hwt hac hlf (p.length + 1) d self items p
    hd hk (Nat.lt_succ_self _)
  refine ⟨⟨r, hr, fun loopFuel2 fuel2 h1 h2 =>
    getItem_mono h loopFuel loopFuel2 h1 (p.length + 1) fuel2 d p r hr h2⟩, ?_⟩
  intro hp
  refine ⟨?_, splitPath_snd_length p hp⟩
  cases p with
  | nil => exact absurd rfl hp
  | cons a t => simp

/-- Witness of C13 on the tree of `main`: `user.getItem("/home//nope")`
returns. -/
theorem getItem_terminates_witness :
    (∃ r, getItem mainHeap 6 ("/home//nope".toList.length + 1) 2 "/home//nope".toList
        = some r ∧
      ∀ loopFuel2 fuel2, 6 ≤ loopFuel2 → "/home//nope".toList.length + 1 ≤ fuel2 →
        getItem mainHeap loopFuel2 fuel2 2 "/home//nope".toList = some r) ∧
    ("/home//nope".toList ≠ [] →
      ("/home//nope".toList.drop 1).length < "/home//nope".toList.length ∧
      (splitPath "/home//nope".toList).2.length < "/home//nope".toList.length) :=
  getItem_terminates mainHeap (fun i => i) 6 2 _ [3, 4, 5] "/home//nope".toList
    mainHeap_wellTyped mainHeap_acyclic (fun _ hi => hi) rfl rfl

/-- C14: round trip `getFullPath` then `getItem`.  In a well-formed heap
(each child's parent is the catalog that holds it, the names of the items
are non-empty and without `'/'`, no two items of a catalog share a name, the
root `r` has no parent and the empty name), let `n` be a node other than the
root, reached from the root through the items `r :: chain`, and let `d` be a
node whose parent links reach the root.  Then `n.getFullPath()` returns a
text `s` and `d.getItem(s)` returns `n`. -/
theorem getItem_getFullPath_roundtrip (h : Heap) (d r n : Nat) (up chain : List Nat)
    (hpih : ParentIsHolder h) (hwn : WellNamed h) (hun : UniqueNames h)
    (hch : isParentChain h (d :: up) = true) (hlast : (d :: up).getLast? = some r)
    (hrn : nameOf h r = [])
    (hic : isItemChain h (r :: chain) = true) (hne : chain ≠ [])
    (hn : (r :: chain).getLast? = some n) :
    ∃ s, (∀ fuel, chain.length < fuel → getFullPath h fuel n = some s) ∧
      (∀ loopFuel fuel, up.length < loopFuel → chain.length < fuel →
        getItem h loopFuel fuel d s = some (some n)) := by
  refine ⟨'/' :: List.intercalate ['/'] (chain.map (nameOf h)), ?_, ?_⟩
  · intro fuel hl
    exact getFullPath_of_itemChain h hpih r n chain fuel
      (isParentChain_last h (d :: up) r hch hlast) hrn hic
      (fun a ha => (itemChain_names h hwn chain r hic a ha).1) hn hl
  · intro loopFuel fuel hlf hl
    obtain ⟨k, rfl⟩ : ∃ k, fuel = k + 1 := ⟨fuel - 1, by omega⟩
    have hroot := rootCatalog_of_chain h up d loopFuel hch hlf
    rw [hlast] at hroot
    simp only [getItem, List.isEmpty_cons, List.head?_cons, Bool.false_eq_true, if_false,
      if_true, List.drop_succ_cons, List.drop_zero, hroot]
    exact getItem_along_chain h loopFuel hpih hwn hun chain r k n hne hic hn (by omega)

/-- Witness of C14 on the tree of `main`: from `home`, the full path of
`text2.txt` resolves to `text2.txt`. -/
theorem getItem_getFullPath_roundtrip_witness :
    ∃ s, (∀ fuel, [1, 2, 4].length < fuel → getFullPath mainHeap fuel 4 = some s) ∧
      (∀ loopFuel fuel, [0].length < loopFuel → [1, 2, 4].length < fuel →
        getItem mainHeap loopFuel fuel 1 s = some (some 4)) :=
  getItem_getFullPath_roundtrip mainHeap 1 0 4 [0] [1, 2, 4] mainHeap_parentIsHolder
    mainHeap_wellNamed mainHeap_uniqueNames (by decide) (by decide) (by decide) (by decide)
    (by decide) (by decide)

/-- C15: soundness of the resolution.  Let each child's parent be the catalog
that holds it and let the parent links of `d` reach the root `r`, which has
the empty name.  For a path `p = "/s1/.../sk"` (`k >= 1`, every segment
non-empty and without `'/'`), if `d.getItem(p)` returns the node `n`, then
`n.getFullPath()` returns `p`. -/
theorem getFullPath_of_getItem (h : Heap) (d r n : Nat) (up : List Nat) (segs : List Str)
    (loopFuel fuel : Nat) (hpih : ParentIsHolder h)
    (hch : isParentChain h (d :: up) = true) (hlast : (d :: up).getLast? = some r)
    (hrn : nameOf h r = [])
    (hne : segs ≠ []) (hseg : ∀ s ∈ segs, s ≠ [] ∧ '/' ∉ s)
    (hg : getItem h loopFuel fuel d (referenceFullPath segs) = some (some n)) :
    ∀ fuel2, segs.length < fuel2 → getFullPath h fuel2 n = some (referenceFullPath segs) := by
  intro fuel2 hl2
  have e : referenceFullPath segs = '/' :: List.intercalate ['/'] segs := rfl
  rw [e] at hg ⊢
  cases fuel with
  | zero => simp [getItem] at hg
  | succ k =>
    simp only [getItem, List.isEmpty_cons, List.head?_cons, Bool.false_eq_true, if_false,
      if_true, List.drop_succ_cons, List.drop_zero] at hg
    cases hr : rootCatalog h loopFuel d with
    | none => simp [hr] at hg
    | some r2 =>
      simp only [hr] at hg
      have e2 := rootCatalog_eq_of_chain h d r r2 up loopFuel hch hlast hr
      subst e2
      obtain ⟨chain, hic, hnames, hlastn⟩ :=
        getItem_segments_chain h loopFuel n segs k r2 hne hseg hg
      have hroot := isParentChain_last h (d :: up) r2 hch hlast
      have hres := getFullPath_of_itemChain h hpih r2 n chain fuel2 hroot hrn hic
        (by
          intro a ha
          have : nameOf h a ∈ segs := by
            rw [← hnames]; exact List.mem_map_of_mem _ ha
          exact (hseg _ this).1)
        hlastn
        (by
          have := congrArg List.length hnames
          simp at this
          omega)
      rw [hres, hnames]

/-- Witness of C15 on the tree of `main`: `user.getItem("/home/user/text1.txt")`
returns `text1.txt`, whose full path is that text. -/
theorem getFullPath_of_getItem_witness :
    getFullPath mainHeap 4 3
      = some (referenceFullPath ["home".toList, "user".toList, "text1.txt".toList]) :=
  getFullPath_of_getItem mainHeap 2 0 3 [1, 0]
    ["home".toList, "user".toList, "text1.txt".toList] 3 4 mainHeap_parentIsHolder
    (by decide) (by decide) (by decide) (by decide) (by decide) (by decide) 4 (by decide)

/-- C16: a single trailing `'/'` is ignored.  For every catalog `d` and every
non-empty `name` without `'/'`, `d.getItem(name + "/")` is `d.getItem(name)`,
at every fuel; and when the first item of `d` named `name` is `f`, both
calls return `f`, also when `f` is a `File`. -/
theorem getItem_trailing_slash (h : Heap) (name : Str) (hne : name ≠ []) (hns : '/' ∉ name) :
    (∀ (d loopFuel fuel : Nat),
        getItem h loopFuel fuel d (name ++ "/".toList) = getItem h loopFuel fuel d name) ∧
    (∀ (d f : Nat) (self fit : FileSystemItem) (pre post : List Nat) (content : Str)
        (loopFuel fuel : Nat),
        h[d]? = some self → self.kind = .catalog (pre ++ f :: post) →
        (∀ i ∈ pre, ∃ it, h[i]? = some it ∧ it.path ≠ name) →
        h[f]? = some fit → fit.path = name → fit.kind = .file content →
        getItem h loopFuel (fuel + 1) d (name ++ "/".toList) = some (some f)) := by
  have e : name ++ "/".toList = name ++ '/' :: [] := rfl
  have key : ∀ (d loopFuel fuel : Nat),
      getItem h loopFuel fuel d (name ++ "/".toList) = getItem h loopFuel fuel d name := by
    intro d loopFuel fuel
    cases fuel with
    | zero => simp [getItem]
    | succ k =>
      have he1 : (name ++ '/' :: []).isEmpty = false := by
        cases name with
        | nil => exact absurd rfl hne
        | cons a r => rfl
      have he2 : name.isEmpty = false := by
        cases name with
        | nil => exact absurd rfl hne
        | cons a r => rfl
      have hs1 := head_ne_slash name ('/' :: []) hns hne
      have hs2 := head_ne_slash name [] hns hne
      rw [List.append_nil] at hs2
      rw [e]
      simp only [getItem, he1, he2, hs1, hs2, Bool.false_eq_true, if_false,
        splitPath_append_slash name [] hns, splitPath_no_slash name hns]
  refine ⟨key, ?_⟩
  intro d f self fit pre post content loopFuel fuel hd hk hpre hf hname _
  rw [key]
  have he2 : name.isEmpty = false := by
    cases name with
    | nil => exact absurd rfl hne
    | cons a r => rfl
  have hs2 := head_ne_slash name [] hns hne
  rw [List.append_nil] at hs2
  simp only [getItem, he2, hs2, hd, hk, Bool.false_eq_true, if_false,
    splitPath_no_slash name hns]
  rw [scanItems_skip h _ name [] pre (f :: post) hpre]
  simp [scanItems, hf, hname]

/-- Witness of C16 on the tree of `main`: `user.getItem("text2.txt/")`
returns the file `text2.txt`. -/
theorem getItem_trailing_slash_witness :
    getItem mainHeap 0 1 2 ("text2.txt".toList ++ "/".toList) = some (some 4) :=
  (getItem_trailing_slash mainHeap "text2.txt".toList (by decide) (by decide)).2
    2 4 _ _ [3] [5] "Содержимое файла text2.txt".toList 0 0 rfl rfl (by decide) rfl rfl rfl

/-- C17: an embedded `"//"` restarts the resolution at the root.  Let the
first item of the catalog `d` named `name` (non-empty, without `'/'`) be the
catalog `c`, and let `r` be the root reached from `c` along the parent links
`c :: up`.  Then `d.getItem(name + "//" + t)` is `r.getItem(t)` for every
`t`.  In a tree the parent of `c` is `d`, and then `r` is the root reached
from `d`. -/
theorem getItem_double_slash (h : Heap) (d c : Nat) (self cit : FileSystemItem)
    (pre post items : List Nat) (name t : Str) (loopFuel fuel : Nat)
    (hd : h[d]? = some self) (hk : self.kind = .catalog (pre ++ c :: post))
    (hpre : ∀ i ∈ pre, ∃ it, h[i]? = some it ∧ it.path ≠ name)
    (hc : h[c]? = some cit) (hname : cit.path = name) (hcat : cit.kind = .catalog items)
    (hne : name ≠ []) (hns : '/' ∉ name) :
    (∀ (r : Nat) (up : List Nat), isParentChain h (c :: up) = true →
        (c :: up).getLast? = some r → up.length < loopFuel →
        getItem h loopFuel (fuel + 2) d (name ++ "//".toList ++ t)
          = getItem h loopFuel fuel r t) ∧
    (∀ (r : Nat) (up : List Nat), cit.parent = some d → isParentChain h (d :: up) = true →
        (d :: up).getLast? = some r → up.length + 1 < loopFuel →
        getItem h loopFuel (fuel + 2) d (name ++ "//".toList ++ t)
          = getItem h loopFuel fuel r t) := by
  have e : name ++ "//".toList ++ t = name ++ '/' :: ('/' :: t) := by simp
  have he : (name ++ '/' :: ('/' :: t)).isEmpty = false := by
    cases name with
    | nil => exact absurd rfl hne
    | cons a r => rfl
  have hs := head_ne_slash name ('/' :: ('/' :: t)) hns hne
  have key : ∀ (r : Nat) (up : List Nat), isParentChain h (c :: up) = true →
      (c :: up).getLast? = some r → up.length < loopFuel →
      getItem h loopFuel (fuel + 2) d (name ++ "//".toList ++ t)
        = getItem h loopFuel fuel r t := by
    intro r up hch hlast hl
    have hroot := rootCatalog_of_chain h up c loopFuel hch hl
    rw [hlast] at hroot
    rw [e]
    simp only [getItem, he, hs, hd, hk, Bool.false_eq_true, if_false,
      splitPath_append_slash name ('/' :: t) hns]
    rw [scanItems_skip h _ name ('/' :: t) pre (c :: post) hpre]
    simp [scanItems, hc, hname, FileSystemItem.isCatalog, hcat, hroot]
  refine ⟨key, ?_⟩
  intro r up hpar hch hlast hl
  refine key r (d :: up) ?_ ?_ (by simpa using hl)
  · rw [isParentChain_cons_cons]
    exact ⟨⟨cit, hc, hpar⟩, hch⟩
  · simpa [List.getLast?_cons_cons] using hlast

/-- Witness of C17 on the tree of `main`: from `home`, the path
`user//home` is resolved as `home` from the root. -/
theorem getItem_double_slash_witness :
    getItem mainHeap 3 (1 + 2) 1 ("user".toList ++ "//".toList ++ "home".toList)
      = getItem mainHeap 3 1 0 "home".toList :=
  (getItem_double_slash mainHeap 1 2 _ _ [] [] [3, 4, 5] "user".toList "home".toList 3 1
      rfl rfl (by simp) rfl rfl rfl (by decide) (by decide)).2
    0 [0] rfl (by decide) (by decide) (by decide)

/-- C18: the root is never the result of a resolution.  In a heap where each
child's parent is the catalog that holds it and `root` has no parent,
`d.getItem(p)` is never `root`, for every `d`, every path `p` and all fuel.
In particular `d.getItem("/")` is `nullptr` for a catalog `d` whose parent
links reach the root, although `"/"` is what `getFullPath` returns for a root
with the empty name. -/
theorem getItem_never_root (h : Heap) (root : Nat) (rit : FileSystemItem)
    (hpih : ParentIsHolder h) (hroot : h[root]? = some rit) (hnone : rit.parent = none) :
    (∀ (d : Nat) (p : Str) (loopFuel fuel : Nat),
        getItem h loopFuel fuel d p ≠ some (some root)) ∧
    (∀ (d : Nat) (up : List Nat) (loopFuel fuel : Nat),
        isParentChain h (d :: up) = true → (d :: up).getLast? = some root →
        up.length < loopFuel →
        getItem h loopFuel (fuel + 2) d "/".toList = some none) ∧
    (rit.path = [] → ∀ fuel, getFullPath h (fuel + 1) root = some "/".toList) := by
  refine ⟨?_, ?_, ?_⟩
  · intro d p loopFuel fuel hg
    obtain ⟨c, cat, its, hc, hck, hmem⟩ := getItem_result_mem h loopFuel root fuel d p hg
    obtain ⟨child, hchild, hpar⟩ := hpih c cat its hc hck root hmem
    rw [hroot] at hchild
    have e := Option.some.inj hchild
    subst e
    rw [hnone] at hpar
    cases hpar
  · intro d up loopFuel fuel hch hlast hl
    have hr := rootCatalog_of_chain h up d loopFuel hch hl
    rw [hlast] at hr
    have e : "/".toList = ['/'] := rfl
    rw [e]
    simp [getItem, hr]
  · intro hp fuel
    simp [getFullPath, hroot, hnone, hp]

/-- Witness of C18 on the tree of `main`: no resolution from `user` gives the
root, and `user.getItem("/")` is `nullptr`. -/
theorem getItem_never_root_witness :
    getItem mainHeap 3 5 2 "/home/user/text1.txt".toList ≠ some (some 0) ∧
    getItem mainHeap 3 (0 + 2) 2 "/".toList = some none :=
  ⟨(getItem_never_root mainHeap 0 _ mainHeap_parentIsHolder rfl rfl).1
      2 "/home/user/text1.txt".toList 3 5,
   (getItem_never_root mainHeap 0 _ mainHeap_parentIsHolder rfl rfl).2.1
      2 [1, 0] 3 0 (by decide) (by decide) (by decide)⟩

/-- C19, as stated, fails on the tree of `main` with `d = user` and
`x = root`: before the call `user.getItem("/home")` returns `home`; the call
`user->addItem(root)` succeeds and makes `user` the parent of the root, so
the parent links form a cycle and afterwards `user.getItem("/home")` gives no
result at any fuel (the climb to the root never ends). -/
theorem getItem_after_addItem_counterexample :
    (∀ loopFuel fuel,
      getItem mainHeap (loopFuel + 3) (fuel + 2) 2 "/home".toList = some (some 1)) ∧
    addItem mainHeap 2 0 = some mainHeapRootAdded ∧
    (∀ loopFuel fuel, getItem mainHeapRootAdded loopFuel fuel 2 "/home".toList = none) := by
  refine ⟨?_, by decide, ?_⟩
  · intro loopFuel fuel
    exact getItem_mono mainHeap 3 (loopFuel + 3) (by omega) 2 (fuel + 2) 2 _ _ (by decide)
      (by omega)
  · intro loopFuel fuel
    cases fuel with
    | zero => rfl
    | succ k =>
      have e : "/home".toList = '/' :: "home".toList := rfl
      rw [e]
      simp [getItem, (rootCatalog_cycle loopFuel).2.2]

/-- C19, amended: `d.addItem(x)` succeeds and a resolution that returned a
node before returns the same node afterwards, whenever the new parent of `x`
cannot change a climb of the resolution:
(1) the call starts in a set `Q` of nodes that is closed under the parent
links and under the descent into child catalogs, and `x` is outside `Q` or
has the parent `d` already;
(2) as a case of (1), `x` is not a catalog, whatever its previous parent, no
object has `x` as its parent (the type `Catalog*` of `parent` sees to that),
and the call is made on a catalog;
(3) as a case of (1), the parent of `x` is `d` already;
(4) as a case of (1), `x` is not linked (nobody's parent, in no items) and
the call is not made on `x`;
(5) `x` and `d` had the same root and `x` is not on the parent links of `d`:
then the climb takes at most `up.length + 1` more steps. -/
theorem getItem_after_addItem (h : Heap) (d x : Nat) (self it : FileSystemItem)
    (items : List Nat) (hd : h[d]? = some self) (hk : self.kind = .catalog items)
    (hx : h[x]? = some it) :
    ∃ h2, addItem h d x = some h2 ∧
      (∀ Q : Nat → Prop,
        (∀ (j : Nat) (jt : FileSystemItem) (p : Nat), Q j → h[j]? = some jt →
          jt.parent = some p → Q p) →
        (∀ (c : Nat) (cself : FileSystemItem) (its : List Nat) (j : Nat)
          (jt : FileSystemItem), Q c → h[c]? = some cself → cself.kind = .catalog its →
          j ∈ its → h[j]? = some jt → jt.isCatalog = true → Q j) →
        (Q x → it.parent = some d) →
        ∀ (loopFuel fuel c : Nat) (p : Str) (n : Nat), Q c →
          getItem h loopFuel fuel c p = some (some n) →
          getItem h2 loopFuel fuel c p = some (some n)) ∧
      (it.isCatalog = false →
        (∀ (j : Nat) (jt : FileSystemItem), h[j]? = some jt → jt.parent ≠ some x) →
        ∀ (loopFuel fuel c : Nat) (cself : FileSystemItem) (cits : List Nat) (p : Str)
          (n : Nat), h[c]? = some cself → cself.kind = .catalog cits →
          getItem h loopFuel fuel c p = some (some n) →
          getItem h2 loopFuel fuel c p = some (some n)) ∧
      (it.parent = some d →
        ∀ (loopFuel fuel c : Nat) (p : Str) (n : Nat),
          getItem h loopFuel fuel c p = some (some n) →
          getItem h2 loopFuel fuel c p = some (some n)) ∧
      (Unlinked h x →
        ∀ (loopFuel fuel c : Nat) (p : Str) (n : Nat), c ≠ x →
          getItem h loopFuel fuel c p = some (some n) →
          getItem h2 loopFuel fuel c p = some (some n)) ∧
      (∀ (up upx : List Nat) (r0 : Nat), isParentChain h (d :: up) = true → x ∉ d :: up →
        (d :: up).getLast? = some r0 → isParentChain h (x :: upx) = true →
        (x :: upx).getLast? = some r0 →
        ∀ (loopFuel fuel c : Nat) (p : Str) (n : Nat),
          getItem h loopFuel fuel c p = some (some n) →
          getItem h2 (loopFuel + up.length + 1) fuel c p = some (some n)) := by
  obtain ⟨h2, hadd, hfacts, hitems⟩ := addItem_frame h d x self it items hd hk hx
  have hsame : ∀ (j : Nat) (jt : FileSystemItem), h[j]? = some jt →
      ∃ jt2 : FileSystemItem, h2[j]? = some jt2 ∧ jt2.path = jt.path ∧
        jt2.isCatalog = jt.isCatalog := by
    intro j jt hj
    obtain ⟨jt2, h1, h2', h3, _, _⟩ := hfacts j jt hj
    exact ⟨jt2, h1, h2', h3⟩
  have key : ∀ Q : Nat → Prop,
      (∀ (j : Nat) (jt : FileSystemItem) (p : Nat), Q j → h[j]? = some jt →
        jt.parent = some p → Q p) →
      (∀ (c : Nat) (cself : FileSystemItem) (its : List Nat) (j : Nat)
        (jt : FileSystemItem), Q c → h[c]? = some cself → cself.kind = .catalog its →
        j ∈ its → h[j]? = some jt → jt.isCatalog = true → Q j) →
      (Q x → it.parent = some d) →
      ∀ (loopFuel fuel c : Nat) (p : Str) (n : Nat), Q c →
        getItem h loopFuel fuel c p = some (some n) →
        getItem h2 loopFuel fuel c p = some (some n) := by
    intro Q hup hdown hqx loopFuel fuel c p n hq hg
    have hpar : ∀ (j : Nat) (jt : FileSystemItem), Q j → h[j]? = some jt →
        ∃ jt2 : FileSystemItem, h2[j]? = some jt2 ∧ jt2.parent = jt.parent := by
      intro j jt hqj hj
      obtain ⟨jt2, h1, _, _, hne, heq⟩ := hfacts j jt hj
      by_cases hjx : j = x
      · subst hjx
        have e : jt = it := by rw [hj] at hx; exact Option.some.inj hx
        subst e
        exact ⟨jt2, h1, by rw [heq rfl, hqx hqj]⟩
      · exact ⟨jt2, h1, hne hjx⟩
    exact getItem_frame h h2 loopFuel loopFuel Q n hsame hitems
      (fun c r hqc hr => rootCatalog_frame h h2 Q hpar hup loopFuel c r hqc hr)
      hdown fuel c p hq hg
  refine ⟨h2, hadd, key, ?_, ?_, ?_, ?_⟩
  · intro hnc hnp loopFuel fuel c cself cits p n hc hck hg
    have hcx : c ≠ x := by
      intro e
      subst e
      rw [hx] at hc
      have e2 := Option.some.inj hc
      subst e2
      simp [FileSystemItem.isCatalog, hck] at hnc
    refine key (fun c => c ≠ x) ?_ ?_ (fun hne => absurd rfl hne) loopFuel fuel c p n hcx hg
    · intro j jt q _ hj hp e
      subst e
      exact hnp j jt hj hp
    · intro c2 cs its j jt _ _ _ _ hj hcat e
      subst e
      rw [hx] at hj
      have e2 := Option.some.inj hj
      subst e2
      rw [hnc] at hcat
      cases hcat
  · intro hpar loopFuel fuel c p n hg
    exact key (fun _ => True) (fun _ _ _ _ _ _ => trivial)
      (fun _ _ _ _ _ _ _ _ _ _ _ => trivial) (fun _ => hpar) loopFuel fuel c p n trivial hg
  · intro hun loopFuel fuel c p n hcx hg
    refine key (fun c => c ≠ x) ?_ ?_ (fun hne => absurd rfl hne) loopFuel fuel c p n hcx hg
    · intro j jt q _ hj hp e
      subst e
      exact hun.1 j jt hj hp
    · intro c2 cs its j jt _ hcs hcsk hj _ _ e
      subst e
      exact hun.2 c2 cs its hcs hcsk hj
  · intro up upx r0 hdc hdx hdr hxc hxr loopFuel fuel c p n hg
    have hpar : ∀ (j : Nat) (jt : FileSystemItem), h[j]? = some jt →
        ∃ jt2 : FileSystemItem, h2[j]? = some jt2 ∧ (j ≠ x → jt2.parent = jt.parent) ∧
          (j = x → jt2.parent = some d) := by
      intro j jt hj
      obtain ⟨jt2, h1, _, _, hne, heq⟩ := hfacts j jt hj
      exact ⟨jt2, h1, hne, heq⟩
    exact getItem_frame h h2 loopFuel (loopFuel + up.length + 1) (fun _ => True) n hsame hitems
      (fun c r _ hr =>
        ⟨rootCatalog_reparent h h2 d x r0 up upx hpar hdc hdx hdr hxc hxr loopFuel c r hr,
          trivial⟩)
      (fun _ _ _ _ _ _ _ _ _ _ _ => trivial) fuel c p trivial hg

/-- Witness of the amended C19: a fourth file is constructed without a parent
and added to `user` in the tree of `main`; `user.getItem("/home/user/text1.txt")`
returns `text1.txt` afterwards as it did before. -/
theorem getItem_after_addItem_witness :
    ∃ h2, addItem (newFile mainHeap "text4.txt".toList [] none).1 2 6 = some h2 ∧
      getItem h2 3 4 2 "/home/user/text1.txt".toList = some (some 3) :=
  Exists.imp
    (fun _ hh =>
      ⟨hh.1, hh.2.2.1 rfl
        (parent_ne_of_wellTyped _ 6 _
          (wellTyped_append mainHeap _ mainHeap_wellTyped rfl (fun _ hk => by cases hk))
          rfl rfl)
        3 4 2 _ [3, 4, 5] "/home/user/text1.txt".toList 3 rfl rfl (by decide)⟩)
    (getItem_after_addItem (newFile mainHeap "text4.txt".toList [] none).1 2 6 _ _
      [3, 4, 5] rfl rfl rfl)

end Homework1
